import Mathlib

/-!
# p2engine `broadcast_socket.cpp`: address classification, local-address guessing and the broadcast socket

A shallow embedding of the free functions of
`src/lib/p2engine/src/broadcast_socket.cpp` (`is_local`, `is_loopback`,
`is_multicast`, `is_any`, `is_teredo`, `guess_local_address`, `common_bits`,
`cidr_distance`) and of the member functions of the class `broadcast_socket`
(the constructor, `open_multicast_socket`, `open_unicast_socket`, `send`,
`on_receive`, `close`), together with the part of Boost.Asio's `ip::address`
value types and socket operations they call.

Conventions.
* `unsigned char` is `Byte = Fin 256`.
* `int` is a 32-bit two's complement integer: values are carried in `Int`
  and every arithmetic result that is stored in an `int` goes through
  `toInt32`.
* A pointer to a byte array is the list of the bytes from the pointee on;
  `*p` is the head, `++p` the tail, and a read past the end is `none`.
-/

namespace p2engine

/-! ## Machine integers -/

/-- One octet, the C++ `unsigned char`. -/
abbrev Byte := Fin 256

/-- The value of an integer expression once stored in a 32-bit `int`
(two's complement wrap-around). -/
def toInt32 (z : Int) : Int := (z + 2147483648) % 4294967296 - 2147483648

/-! ## Boost.Asio address value types -/

/-- Boost.Asio `ip::address_v4`: four octets in network byte order. -/
structure address_v4 where
  bytes : List Byte
  size_eq : bytes.length = 4
deriving DecidableEq

/-- Boost.Asio `ip::address_v6`: sixteen octets in network byte order and a
scope id; `operator==` compares both. -/
structure address_v6 where
  bytes : List Byte
  size_eq : bytes.length = 16
  scope_id : Nat
deriving DecidableEq

/-- Boost.Asio `ip::address`: either an IPv4 or an IPv6 address. -/
inductive address where
  | v4 (a : address_v4)
  | v6 (a : address_v6)
deriving DecidableEq

namespace address_v4

/-- The `address_v4::to_bytes()` accessor. -/
def to_bytes (a : address_v4) : List Byte := a.bytes

/-- The `address_v4::to_ulong()` accessor: the address as a host-order number. -/
def to_ulong (a : address_v4) : Nat :=
  a.bytes.foldl (fun acc b => acc * 256 + b.val) 0

/-- The constant `address_v4::any()`, 0.0.0.0. -/
def any : address_v4 := ⟨[0, 0, 0, 0], rfl⟩

/-- The constant `address_v4::loopback()`, 127.0.0.1. -/
def loopback : address_v4 := ⟨[127, 0, 0, 1], rfl⟩

/-- The `address_v4::is_multicast()` test: the class D range 224.0.0.0/4. -/
def is_multicast (a : address_v4) : Bool :=
  (a.to_ulong &&& 0xF0000000) == 0xE0000000

end address_v4

namespace address_v6

/-- The `address_v6::to_bytes()` accessor. -/
def to_bytes (a : address_v6) : List Byte := a.bytes

/-- The constant `address_v6::any()`, `::` with scope id 0. -/
def any : address_v6 :=
  ⟨[0, 0, 0, 0, 0, 0, 0, 0, 0, 0, 0, 0, 0, 0, 0, 0], rfl, 0⟩

/-- The constant `address_v6::loopback()`, `::1` with scope id 0. -/
def loopback : address_v6 :=
  ⟨[0, 0, 0, 0, 0, 0, 0, 0, 0, 0, 0, 0, 0, 0, 0, 1], rfl, 0⟩

/-- The `address_v6::is_link_local()` test: the prefix fe80::/10. -/
def is_link_local (a : address_v6) : Bool :=
  match a.bytes with
  | b0 :: b1 :: _ => b0.val == 0xfe && (b1.val &&& 0xc0) == 0x80
  | _ => false

/-- The `address_v6::is_multicast()` test: the prefix ff00::/8. -/
def is_multicast (a : address_v6) : Bool :=
  match a.bytes with
  | b0 :: _ => b0.val == 0xff
  | _ => false

/-- The `address_v6::is_v4_mapped()` test: the prefix ::ffff:0:0/96. -/
def is_v4_mapped (a : address_v6) : Bool :=
  a.bytes.take 12 == [0, 0, 0, 0, 0, 0, 0, 0, 0, 0, 0xff, 0xff]

/-- The `address_v6::to_v4()` conversion of a v4-mapped address: its last four
octets. -/
def to_v4 (a : address_v6) : address_v4 :=
  ⟨a.bytes.drop 12, by simp [a.size_eq]⟩

/-- The `address_v6::v4_mapped(addr)` constructor, `::ffff:a.b.c.d`. -/
def v4_mapped (a : address_v4) : address_v6 :=
  ⟨[0, 0, 0, 0, 0, 0, 0, 0, 0, 0, 0xff, 0xff] ++ a.bytes, by simp [a.size_eq], 0⟩

end address_v6

namespace address

/-- The `address::is_v4()` test. -/
def is_v4 : address → Bool
  | v4 _ => true
  | v6 _ => false

/-- The `address::is_v6()` test. -/
def is_v6 : address → Bool
  | v4 _ => false
  | v6 _ => true

end address

/-! ## Address classification (`broadcast_socket.cpp`, lines 42-94) -/

/-- `bool is_local(address const& a)`. -/
def is_local : address → Bool
  | address.v6 a6 => a6.is_link_local
  | address.v4 a4 =>
    let ip := a4.to_ulong
    (ip &&& 0xff000000) == 0x0a000000
      || (ip &&& 0xfff00000) == 0xac100000
      || (ip &&& 0xffff0000) == 0xc0a80000

/-- `bool is_loopback(address const& addr)`. -/
def is_loopback : address → Bool
  | address.v4 a4 => a4 == address_v4.loopback
  | address.v6 a6 => a6 == address_v6.loopback

/-- `bool is_multicast(address const& addr)`. -/
def is_multicast : address → Bool
  | address.v4 a4 => a4.is_multicast
  | address.v6 a6 => a6.is_multicast

/-- `bool is_any(address const& addr)`. -/
def is_any : address → Bool
  | address.v4 a4 => a4 == address_v4.any
  | address.v6 a6 =>
    if a6.is_v4_mapped then a6.to_v4 == address_v4.any
    else a6 == address_v6.any

/-- `bool is_teredo(address const& addr)`: `memcmp` of the first four octets
against `{0x20, 0x01, 0, 0}`; `to_v6()` cannot throw on an IPv6 address, so the
`catch` branch is never taken. -/
def is_teredo (addr : address) : Bool :=
  match addr with
  | address.v4 _ => false
  | address.v6 a6 =>
    let teredo_prefix : List Byte := [0x20, 0x01, 0, 0]
    let b := a6.to_bytes
    b.take 4 == teredo_prefix

/-! ## Local address guess (`broadcast_socket.cpp`, lines 103-131) -/

/-- Modelled from the spec: the interface record declared in
`p2engine/enum_net.hpp` (not part of the sources at hand). The spec describes
it as an address plus family and flags; the only field
`broadcast_socket.cpp` reads is `interface_address`, whose family is part of
the address value. -/
structure ip_interface where
  interface_address : address
deriving DecidableEq

/-- The `for` loop of `guess_local_address` together with the statements after
it, started with the current value of `ret`. -/
def guess_local_address_loop : List ip_interface → address → address
  | [], ret =>
    if ret = address.v4 address_v4.any then address.v4 address_v4.loopback
    else ret
  | i :: rest, ret =>
    let a := i.interface_address
    if is_loopback a || is_multicast a || is_any a then
      guess_local_address_loop rest ret
    else if a.is_v4 then
      if !is_local a then a
      else guess_local_address_loop rest a
    else if ret ≠ address.v4 address_v4.any then
      guess_local_address_loop rest a
    else
      guess_local_address_loop rest ret

/-- `address guess_local_address(io_service& ios)`, as a function of the
interface list that `enum_net_interfaces(ios, ec)` returns. -/
def guess_local_address (interfaces : List ip_interface) : address :=
  guess_local_address_loop interfaces (address.v4 address_v4.any)

/-! ## Common bit prefix and CIDR distance (`broadcast_socket.cpp`, lines 133-167) -/

/-- The inner loop `for (; a > 0; a >>= 1) --ret;` of `common_bits`, unrolled
`fuel` times. The loop variable is an `unsigned char`, so eight shifts clear it
(`common_bits_shift_done`). -/
def common_bits_shift : Nat → Nat → Int → Int
  | 0, _, ret => ret
  | fuel + 1, a, ret =>
    if 0 < a then common_bits_shift fuel (a >>> 1) (toInt32 (ret - 1)) else ret

/-- The outer loop of `common_bits` at index `i`, with `b1` and `b2` the two
pointers and `n` the bound `(int)n`, together with the final `return`. The
increment `++i` cannot overflow because `i < (int)n`. -/
def common_bits_loop (n : Int) : List Byte → List Byte → Int → Option Int
  | x :: b1, y :: b2, i =>
    if i < n then
      let a := (x.val ^^^ y.val) % 256
      if a = 0 then common_bits_loop n b1 b2 (i + 1)
      else some (common_bits_shift 8 a (toInt32 (toInt32 (i * 8) + 8)))
    else some (toInt32 (n * 8))
  | _, _, i =>
    if i < n then none
    else some (toInt32 (n * 8))

/-- `int common_bits(unsigned char const* b1, unsigned char const* b2, size_t n)`. -/
def common_bits (b1 b2 : List Byte) (n : Nat) : Option Int :=
  common_bits_loop (toInt32 n) b1 b2 0

/-- `int cidr_distance(address const& a1, address const& a2)`. -/
def cidr_distance (a1 a2 : address) : Option Int :=
  match a1, a2 with
  | address.v4 x, address.v4 y =>
    let b1 := x.to_bytes
    let b2 := y.to_bytes
    (common_bits b1 b2 b1.length).map fun c => toInt32 (toInt32 ((b1.length * 8 : Nat) : Int) - c)
  | _, _ =>
    let b1 := match a1 with
      | address.v4 x => (address_v6.v4_mapped x).to_bytes
      | address.v6 x => x.to_bytes
    let b2 := match a2 with
      | address.v4 y => (address_v6.v4_mapped y).to_bytes
      | address.v6 y => y.to_bytes
    (common_bits b1 b2 b1.length).map fun c => toInt32 (toInt32 ((b1.length * 8 : Nat) : Int) - c)

/-! ## The class `broadcast_socket` (`broadcast_socket.cpp`, lines 169-279)

The class is embedded by explicit state passing: a member function takes the
object `self` and returns the object it leaves behind together with the
operations it handed to the reactor, in the order of the calls. The type `H`
is that of the non-empty values of `receive_handler_t`. -/

/-- Boost.Asio `udp::endpoint`: an address and a port. -/
structure endpoint where
  address : address
  port : Nat
deriving DecidableEq

/-- The part of the Boost.Asio `io_service`, and of the operating system behind
it, that the class sees: `created` is the number of `datagram_socket` objects
allocated so far, which numbers the next one, and for the socket with number
`k` each field tells whether that synchronous call sets its `error_code`
output (`true`) or succeeds (`false`). -/
structure io_service where
  created : Nat
  open_ec : Nat → Bool
  reuse_address_ec : Nat → Bool
  bind_ec : Nat → Bool
  join_group_ec : Nat → Bool
  hops_ec : Nat → Bool
  enable_loopback_ec : Nat → Bool

/-- A Boost.Asio `datagram_socket` after its set-up: its number, the protocol
it was opened with, the endpoint it is bound to and the options set on it. -/
structure datagram_socket where
  id : Nat
  is_v4 : Bool
  local_endpoint : endpoint
  reuse_address : Bool
  join_group : Option address
  hops : Option Nat
  enable_loopback : Option Bool
deriving DecidableEq

/-- Modelled from the spec: the entry type `socket_entry` is declared in
`p2engine/broadcast_socket.hpp` (not part of the sources at hand). The spec
describes it as one UDP socket with a fixed-capacity receive buffer and a
scratch field for the most recent sender endpoint; `broadcast_socket.cpp` reads
the members `socket` (a `shared_ptr`, `none` when it is null), `buffer` and
`remote`. -/
structure socket_entry where
  socket : Option datagram_socket
  buffer : List Byte
  remote : endpoint
deriving DecidableEq

/-- Modelled from the spec: the constructor `socket_entry(s)`, whose body is in
the missing header. It stores the socket; the buffer holds no received bytes
yet and `remote` is the default endpoint 0.0.0.0:0. -/
def socket_entry.init (s : datagram_socket) : socket_entry :=
  ⟨some s, [], ⟨address.v4 address_v4.any, 0⟩⟩

/-- Modelled from the spec: the member `socket_entry::close`, whose body is in
the missing header. The spec says that after `close()` the owning socket handle
of an entry is invalid/cleared; the buffer and the sender field stay. -/
def socket_entry.close (e : socket_entry) : socket_entry :=
  ⟨none, e.buffer, e.remote⟩

/-- A `socket_entry*`: the entries live in the two `std::list` members, whose
nodes never move, so a pointer is one of the lists and a position in it. -/
inductive socket_entry_ptr where
  | m_sockets (i : Nat)
  | m_unicast_sockets (i : Nat)
deriving DecidableEq

/-- What a member function hands to the reactor or calls: an asynchronous
receive on a socket whose completion is bound to `on_receive` with the entry
`s`, an asynchronous send whose completion is discarded, or a call of the
receive callback. -/
inductive operation (H : Type) where
  | async_receive_from (socket : datagram_socket) (s : socket_entry_ptr)
  | async_send_to (socket : datagram_socket) (buf : List Byte) (destination : endpoint)
  | m_on_receive (handler : H) (remote : endpoint) (buffer : List Byte)
      (bytes_transferred : Int)
deriving DecidableEq

/-- The data members of `broadcast_socket`. -/
structure broadcast_socket (H : Type) where
  m_multicast_endpoint : endpoint
  m_on_receive : Option H
  m_sockets : List socket_entry
  m_unicast_sockets : List socket_entry
deriving DecidableEq

/-- Dereference of a `socket_entry*`; `none` for a pointer to no entry. -/
def broadcast_socket.deref {H : Type} (self : broadcast_socket H) :
    socket_entry_ptr → Option socket_entry
  | socket_entry_ptr.m_sockets i => self.m_sockets[i]?
  | socket_entry_ptr.m_unicast_sockets i => self.m_unicast_sockets[i]?

/-- `void broadcast_socket::open_multicast_socket(io_service& ios,
address const& addr, bool loopback)`. -/
def broadcast_socket.open_multicast_socket {H : Type} (ios : io_service)
    (self : broadcast_socket H) (addr : address) (loopback : Bool) :
    io_service × broadcast_socket H × List (operation H) :=
  let k := ios.created
  let ios1 : io_service := { ios with created := k + 1 }
  if ios.open_ec k then (ios1, self, [])
  else if ios.reuse_address_ec k then (ios1, self, [])
  else if ios.bind_ec k then (ios1, self, [])
  else if ios.join_group_ec k then (ios1, self, [])
  else if ios.hops_ec k then (ios1, self, [])
  else if ios.enable_loopback_ec k then (ios1, self, [])
  else
    let s : datagram_socket :=
      ⟨k, addr.is_v4, ⟨addr, self.m_multicast_endpoint.port⟩, true,
        some self.m_multicast_endpoint.address, some 255, some loopback⟩
    (ios1, { self with m_sockets := self.m_sockets ++ [socket_entry.init s] },
      [operation.async_receive_from s (socket_entry_ptr.m_sockets self.m_sockets.length)])

/-- `void broadcast_socket::open_unicast_socket(io_service& ios,
address const& addr)`. -/
def broadcast_socket.open_unicast_socket {H : Type} (ios : io_service)
    (self : broadcast_socket H) (addr : address) :
    io_service × broadcast_socket H × List (operation H) :=
  let k := ios.created
  let ios1 : io_service := { ios with created := k + 1 }
  if ios.open_ec k then (ios1, self, [])
  else if ios.bind_ec k then (ios1, self, [])
  else
    let s : datagram_socket := ⟨k, addr.is_v4, ⟨addr, 0⟩, false, none, none, none⟩
    (ios1, { self with m_unicast_sockets := self.m_unicast_sockets ++ [socket_entry.init s] },
      [operation.async_receive_from s
        (socket_entry_ptr.m_unicast_sockets self.m_unicast_sockets.length)])

/-- The `for` loop of the constructor over the interfaces that are left. -/
def broadcast_socket.open_unicast_sockets {H : Type} (isV4 : Bool) :
    List ip_interface → io_service → broadcast_socket H →
      io_service × broadcast_socket H × List (operation H)
  | [], ios, self => (ios, self, [])
  | i :: rest, ios, self =>
    if i.interface_address.is_v4 != isV4 then
      broadcast_socket.open_unicast_sockets isV4 rest ios self
    else if is_loopback i.interface_address then
      broadcast_socket.open_unicast_sockets isV4 rest ios self
    else if is_any i.interface_address then
      broadcast_socket.open_unicast_sockets isV4 rest ios self
    else
      let r1 := broadcast_socket.open_unicast_socket ios self i.interface_address
      let r2 := broadcast_socket.open_unicast_sockets isV4 rest r1.1 r1.2.1
      (r2.1, r2.2.1, r1.2.2 ++ r2.2.2)

/-- The constructor `broadcast_socket::broadcast_socket(io_service& ios,
udp::endpoint const& multicast_endpoint, receive_handler_t const& handler,
bool loopback, bool joingroup)` (named `construct`, as the class name is taken by
the type), with `interfaces` the list that
`enum_net_interfaces(ios, ec)` returns (its `ec` is not looked at). The result
is `none` when `BOOST_ASSERT` fails. -/
def broadcast_socket.construct {H : Type} (ios : io_service)
    (interfaces : List ip_interface) (multicast_endpoint : endpoint) (handler : Option H)
    (loopback joingroup : Bool) :
    Option (io_service × broadcast_socket H × List (operation H)) :=
  if !is_multicast multicast_endpoint.address then none
  else
    let self0 : broadcast_socket H := ⟨multicast_endpoint, handler, [], []⟩
    let isV4 := multicast_endpoint.address.is_v4
    let r1 :=
      if joingroup then
        if isV4 then
          broadcast_socket.open_multicast_socket ios self0 (address.v4 address_v4.any) loopback
        else
          broadcast_socket.open_multicast_socket ios self0 (address.v6 address_v6.any) loopback
      else (ios, self0, [])
    let r2 := broadcast_socket.open_unicast_sockets isV4 interfaces r1.1 r1.2.1
    some (r2.1, r2.2.1, r1.2.2 ++ r2.2.2)

/-- The `for` loop of `send` over the unicast entries that are left. -/
def broadcast_socket.send_loop {H : Type} (asiobuf : List Byte) (m_multicast_endpoint : endpoint) :
    List socket_entry → List (operation H)
  | [] => []
  | i :: rest =>
    match i.socket with
    | none => broadcast_socket.send_loop asiobuf m_multicast_endpoint rest
    | some socket =>
      operation.async_send_to socket asiobuf m_multicast_endpoint
        :: broadcast_socket.send_loop asiobuf m_multicast_endpoint rest

/-- `void broadcast_socket::send(const safe_buffer& buf, error_code& ec)`: the
object and the `ec` it leaves behind, and the sends it submits. The completion
handler of each send is the empty `dummy_handler`. -/
def broadcast_socket.send {H : Type} (self : broadcast_socket H) (buf : List Byte)
    (ec : Bool) : broadcast_socket H × Bool × List (operation H) :=
  (self, ec, broadcast_socket.send_loop buf self.m_multicast_endpoint self.m_unicast_sockets)

/-- `void broadcast_socket::on_receive(socket_entry* s, error_code const& ec,
size_t bytes_transferred)`. The argument `run` is the effect that running a
handler with the given arguments has on the object (a handler may call `close`
or `send` on it). The result is `none` when `s` points to no entry. -/
def broadcast_socket.on_receive {H : Type}
    (run : H → endpoint → List Byte → Int → broadcast_socket H → broadcast_socket H)
    (self : broadcast_socket H) (s : socket_entry_ptr) (ec : Bool) (bytes_transferred : Nat) :
    Option (broadcast_socket H × List (operation H)) :=
  if ec || bytes_transferred == 0 || self.m_on_receive.isNone then some (self, [])
  else
    match self.m_on_receive, self.deref s with
    | some handler, some e =>
      let call : operation H :=
        operation.m_on_receive handler e.remote e.buffer (toInt32 bytes_transferred)
      let self1 := run handler e.remote e.buffer (toInt32 bytes_transferred) self
      match self1.deref s with
      | none => none
      | some e1 =>
        match e1.socket with
        | none => some (self1, [call])
        | some socket => some (self1, [call, operation.async_receive_from socket s])
    | _, _ => none

/-- `void broadcast_socket::close()`, with the member `socket_entry::close` it
applies to every entry as the argument `entry_close`. -/
def broadcast_socket.close {H : Type} (entry_close : socket_entry → socket_entry)
    (self : broadcast_socket H) : broadcast_socket H :=
  { self with
    m_sockets := self.m_sockets.map entry_close
    m_unicast_sockets := self.m_unicast_sockets.map entry_close
    m_on_receive := none }

/-! ## The reactor

Receive completions reach the object one at a time, each for a receive that is
outstanding. -/

/-- The entries on which a list of operations starts a receive. -/
def operation.receives {H : Type} : List (operation H) → List socket_entry_ptr
  | [] => []
  | operation.async_receive_from _ s :: rest => s :: operation.receives rest
  | _ :: rest => operation.receives rest

/-- The number of calls of the receive callback in a list of operations. -/
def operation.calls {H : Type} : List (operation H) → Nat
  | [] => 0
  | operation.m_on_receive _ _ _ _ :: rest => operation.calls rest + 1
  | _ :: rest => operation.calls rest

/-- An event at the object: the completion of a receive, delivered to
`on_receive`, or a call of `send` or of `close`. -/
inductive event where
  | completion (s : socket_entry_ptr) (ec : Bool) (bytes_transferred : Nat)
  | send (buf : List Byte)
  | close
deriving DecidableEq

/-- The object together with the entries that have a receive outstanding. -/
structure reactor (H : Type) where
  self : broadcast_socket H
  outstanding : List socket_entry_ptr

/-- One event. A completion is delivered only for an outstanding receive, which
it ends; the receives that `on_receive` starts become outstanding. Closing a
socket leaves its receive outstanding until the completion is delivered. -/
def reactor.step {H : Type}
    (run : H → endpoint → List Byte → Int → broadcast_socket H → broadcast_socket H)
    (entry_close : socket_entry → socket_entry)
    (w : reactor H) : event → Option (reactor H × List (operation H))
  | event.completion s ec bytes_transferred =>
    if s ∈ w.outstanding then
      match w.self.on_receive run s ec bytes_transferred with
      | none => none
      | some (self1, ops) =>
        some (⟨self1, w.outstanding.erase s ++ operation.receives ops⟩, ops)
    else none
  | event.send buf =>
    some (⟨(w.self.send buf false).1, w.outstanding⟩, (w.self.send buf false).2.2)
  | event.close => some (⟨w.self.close entry_close, w.outstanding⟩, [])

/-- A sequence of events, with the operations of all of them in order. -/
def reactor.steps {H : Type}
    (run : H → endpoint → List Byte → Int → broadcast_socket H → broadcast_socket H)
    (entry_close : socket_entry → socket_entry) :
    reactor H → List event → Option (reactor H × List (operation H))
  | w, [] => some (w, [])
  | w, e :: rest =>
    match w.step run entry_close e with
    | none => none
    | some (w1, ops1) =>
      match reactor.steps run entry_close w1 rest with
      | none => none
      | some (w2, ops2) => some (w2, ops1 ++ ops2)

/-- The completions of a list delivered to `on_receive` one after the other,
whether or not a receive is outstanding, with the operations of all of them in
order. -/
def broadcast_socket.deliver {H : Type}
    (run : H → endpoint → List Byte → Int → broadcast_socket H → broadcast_socket H) :
    broadcast_socket H → List (socket_entry_ptr × Bool × Nat) →
      Option (broadcast_socket H × List (operation H))
  | self, [] => some (self, [])
  | self, (s, ec, bytes_transferred) :: rest =>
    match self.on_receive run s ec bytes_transferred with
    | none => none
    | some (self1, ops1) =>
      match broadcast_socket.deliver run self1 rest with
      | none => none
      | some (self2, ops2) => some (self2, ops1 ++ ops2)

/-! ## Specification vocabulary -/

/-- Bit `k` of a byte sequence read most-significant-bit first: bit `7 - k % 8`
of the octet at index `k / 8`. -/
def seqBit (b : List Byte) (k : Nat) : Bool :=
  (b.getD (k / 8) 0).val.testBit (7 - k % 8)

/-- Number of positions, counted from bit `s` on and at most `r`, up to the
first one at which the two sequences differ. -/
def commonPrefixFrom (b1 b2 : List Byte) : Nat → Nat → Nat
  | 0, _ => 0
  | r + 1, s =>
    if seqBit b1 s = seqBit b2 s then 1 + commonPrefixFrom b1 b2 r (s + 1) else 0

/-- Octet `i` of an IPv4 address in dotted order (`a.b.c.d` has octets 0..3). -/
def address_v4.octet (a : address_v4) (i : Nat) : Nat := (a.bytes.getD i 0).val

/-- Octet `i` of an IPv6 address in network order (octets 0..15). -/
def address_v6.octet (a : address_v6) (i : Nat) : Nat := (a.bytes.getD i 0).val

/-- An address `guess_local_address` does not skip: not loopback, not multicast
and not the wildcard. -/
def usable (a : address) : Bool :=
  !(is_loopback a || is_multicast a || is_any a)

/-- A globally routable IPv4 address: usable, IPv4 and not `is_local`. -/
def global_v4 (a : address) : Bool :=
  usable a && a.is_v4 && !is_local a

/-- The 16-byte form `cidr_distance` compares when an IPv6 address is involved:
an IPv4 operand is replaced by its IPv4-mapped IPv6 form `::ffff:a.b.c.d`. -/
def v6_form : address → List Byte
  | address.v4 x => (address_v6.v4_mapped x).to_bytes
  | address.v6 x => x.to_bytes

/-- Length of the longest common bit prefix of two byte sequences of the same
length, read most-significant-bit first. -/
def commonPrefixLen (b1 b2 : List Byte) : Nat :=
  commonPrefixFrom b1 b2 (8 * b1.length) 0

/-- Number of bit positions at which two byte sequences of the same length
differ: their Hamming distance. -/
def hammingDistance (b1 b2 : List Byte) : Nat :=
  ((List.range (8 * b1.length)).filter fun k => seqBit b1 k != seqBit b2 k).length

/-- An interface the constructor opens a unicast socket for: its family is that
of the multicast endpoint and its address is neither loopback nor the
wildcard. -/
def qualifies (isV4 : Bool) (i : ip_interface) : Bool :=
  i.interface_address.is_v4 == isV4 && !is_loopback i.interface_address
    && !is_any i.interface_address

/-- The entry of a unicast socket with number `k` bound to `(addr, 0)`. -/
def unicast_entry (k : Nat) (addr : address) : socket_entry :=
  socket_entry.init ⟨k, addr.is_v4, ⟨addr, 0⟩, false, none, none, none⟩

/-- The unicast list a construction is to leave: the qualifying interfaces in
order, numbered from `first` as their sockets are allocated, of which those are
kept whose open and bind both succeed, each as an entry bound to
`(interface address, 0)`. -/
def expected_unicast_sockets (ios : io_service) (isV4 : Bool) (first : Nat)
    (interfaces : List ip_interface) : List socket_entry :=
  ((interfaces.filter (qualifies isV4)).enumFrom first).filterMap fun p =>
    if ios.open_ec p.1 || ios.bind_ec p.1 then none
    else some (unicast_entry p.1 p.2.interface_address)

/-! ## Sample values -/

/-- A unicast socket, number 0, bound to 192.168.1.10 port 0. -/
def sample_socket : datagram_socket :=
  ⟨0, true, ⟨address.v4 ⟨[192, 168, 1, 10], rfl⟩, 0⟩, false, none, none, none⟩

/-- An entry of `sample_socket` holding a datagram of five bytes from
192.168.1.20 port 1900. -/
def sample_entry : socket_entry :=
  ⟨some sample_socket, [1, 2, 3, 4, 5], ⟨address.v4 ⟨[192, 168, 1, 20], rfl⟩, 1900⟩⟩

/-- An object for the group 239.255.255.250 port 1900 with the handler `7`, no
group socket and the one unicast entry `sample_entry`. -/
def sample_object : broadcast_socket Nat :=
  ⟨⟨address.v4 ⟨[239, 255, 255, 250], rfl⟩, 1900⟩, some 7, [], [sample_entry]⟩

/-- A handler that leaves the object alone. -/
def sample_run_idle (_ : Nat) (_ : endpoint) (_ : List Byte) (_ : Int)
    (self : broadcast_socket Nat) : broadcast_socket Nat := self

/-- A handler that closes the object. -/
def sample_run_close (_ : Nat) (_ : endpoint) (_ : List Byte) (_ : Int)
    (self : broadcast_socket Nat) : broadcast_socket Nat := self.close socket_entry.close

/-! ## Machine-integer lemmas -/

theorem toInt32_of_range (z : Int) (h1 : -2147483648 ≤ z) (h2 : z ≤ 2147483647) :
    toInt32 z = z := by
  unfold toInt32
  omega

/-- The inner loop of `common_bits` subtracts the bit length `m` of `a` from
`ret`; `m` shifts are enough to leave the loop. -/
theorem common_bits_shift_eq (m : Nat) : ∀ (fuel a : Nat) (ret : Int), m ≤ fuel →
    a < 2 ^ m → (m = 0 ∨ 2 ^ (m - 1) ≤ a) → -2147483648 + (m : Int) ≤ ret →
    ret ≤ 2147483647 → common_bits_shift fuel a ret = ret - m := by
  induction m with
  | zero =>
    intro fuel a ret _ ha _ _ _
    have ha0 : a = 0 := by simpa using ha
    subst ha0
    cases fuel <;> simp [common_bits_shift]
  | succ m ih =>
    intro fuel a ret hf ha hge hlo hhi
    obtain ⟨f, rfl⟩ : ∃ f, fuel = f + 1 := ⟨fuel - 1, by omega⟩
    have hge2 : 2 ^ m ≤ a := by
      rcases hge with h | h
      · omega
      · simpa using h
    have hpos : 0 < a := lt_of_lt_of_le (Nat.two_pow_pos m) hge2
    have hpow : 2 ^ (m + 1) = 2 * 2 ^ m := by rw [pow_succ]; ring
    have hwrap : toInt32 (ret - 1) = ret - 1 := toInt32_of_range _ (by omega) (by omega)
    have hhalf : a >>> 1 = a / 2 := by simp [Nat.shiftRight_eq_div_pow]
    simp only [common_bits_shift, hpos, if_true, hwrap, hhalf]
    rw [ih f (a / 2) (ret - 1) (by omega) (by omega) ?_ (by omega) (by omega)]
    · push_cast; ring
    · rcases Nat.eq_zero_or_pos m with h0 | h0
      · exact Or.inl h0
      · right
        have hpow2 : 2 ^ m = 2 * 2 ^ (m - 1) := by
          obtain ⟨k, rfl⟩ : ∃ k, m = k + 1 := ⟨m - 1, by omega⟩
          simp [pow_succ]; ring
        omega

/-- Eight shifts clear an `unsigned char`: the unrolled inner loop of
`common_bits` has left the loop, more unrolling changes nothing. -/
theorem common_bits_shift_done (a : Nat) (ha : a < 256) (ret : Int) (extra : Nat) :
    common_bits_shift (8 + extra) a ret = common_bits_shift 8 a ret := by
  have hz : ∀ (f : Nat) (r : Int), common_bits_shift f 0 r = r := by
    intro f r; cases f <;> simp [common_bits_shift]
  have key : ∀ (k f : Nat) (b : Nat) (r : Int), b < 2 ^ k →
      common_bits_shift (k + f) b r = common_bits_shift k b r := by
    intro k
    induction k with
    | zero =>
      intro f b r hb
      have : b = 0 := by simpa using hb
      subst this
      rw [hz, hz]
    | succ k ih =>
      intro f b r hb
      have e : k + 1 + f = (k + f) + 1 := by omega
      rw [e]
      simp only [common_bits_shift]
      split
      · have hhalf : b >>> 1 = b / 2 := by simp [Nat.shiftRight_eq_div_pow]
        rw [hhalf]
        apply ih
        have hpow : 2 ^ (k + 1) = 2 * 2 ^ k := by rw [pow_succ]; ring
        omega
      · rfl
  exact key 8 extra a ret (by simpa using ha)

/-- Where the exclusive-or of two numbers has bit length `m`, the two numbers
agree on every bit from `m` upwards and differ at bit `m - 1`. -/
theorem xor_top_bit (x y m : Nat) (hm : 1 ≤ m) (hlt : x ^^^ y < 2 ^ m)
    (hge : 2 ^ (m - 1) ≤ x ^^^ y) :
    (∀ j, m ≤ j → x.testBit j = y.testBit j) ∧ x.testBit (m - 1) ≠ y.testBit (m - 1) := by
  constructor
  · intro j hj
    have h1 : (x ^^^ y).testBit j = false :=
      Nat.testBit_lt_two_pow (lt_of_lt_of_le hlt (Nat.pow_le_pow_right (by decide) hj))
    rw [Nat.testBit_xor] at h1
    revert h1
    cases x.testBit j <;> cases y.testBit j <;> simp
  · have h1 : (x ^^^ y).testBit (m - 1) = true := by
      rw [Nat.testBit_to_div_mod]
      have hpow : 2 ^ m = 2 * 2 ^ (m - 1) := by
        obtain ⟨k, rfl⟩ : ∃ k, m = k + 1 := ⟨m - 1, by omega⟩
        simp [pow_succ]; ring
      have hq : (x ^^^ y) / 2 ^ (m - 1) = 1 := by
        apply Nat.div_eq_of_lt_le
        · simpa using hge
        · rw [hpow] at hlt; simpa [Nat.mul_comm] using hlt
      simp [hq]
    rw [Nat.testBit_xor] at h1
    revert h1
    cases x.testBit (m - 1) <;> cases y.testBit (m - 1) <;> simp

/-! ## Bits of a byte sequence -/

theorem seqBit_cons_lt (x : Byte) (b : List Byte) (j : Nat) (hj : j < 8) :
    seqBit (x :: b) j = x.val.testBit (7 - j) := by
  have h0 : j / 8 = 0 := by omega
  have h1 : j % 8 = j := by omega
  simp [seqBit, h0, h1]

theorem seqBit_cons_add (x : Byte) (b : List Byte) (j : Nat) :
    seqBit (x :: b) (j + 8) = seqBit b j := by
  have h0 : (j + 8) / 8 = j / 8 + 1 := by omega
  have h1 : (j + 8) % 8 = j % 8 := by omega
  simp [seqBit, h0, h1]

/-- The outer loop of `common_bits`, entered at index `i` with `b1` and `b2`
the remaining bytes: it returns `8 * i` plus the length `k` of the common bit
prefix of the remaining bytes. -/
theorem common_bits_loop_spec : ∀ (b1 b2 : List Byte) (i n : Nat),
    b1.length = b2.length → i + b1.length = n → 8 * n ≤ 2147483647 →
    ∃ k : Nat, common_bits_loop (n : Int) b1 b2 (i : Int) = some ((8 * i + k : Nat) : Int)
      ∧ k ≤ 8 * b1.length
      ∧ (∀ j, j < k → seqBit b1 j = seqBit b2 j)
      ∧ (k < 8 * b1.length → seqBit b1 k ≠ seqBit b2 k)
      ∧ (k = 8 * b1.length ↔ b1 = b2) := by
  intro b1
  induction b1 with
  | nil =>
    intro b2 i n hlen hin hn
    have hb2 : b2 = [] := by
      cases b2 with
      | nil => rfl
      | cons y t => simp at hlen
    subst hb2
    simp only [List.length_nil, Nat.add_zero] at hin
    subst hin
    refine ⟨0, ?_, by simp, by simp, by simp, by simp⟩
    have hw : toInt32 ((i : Int) * 8) = (i : Int) * 8 :=
      toInt32_of_range _ (by omega) (by omega)
    simp only [common_bits_loop, lt_irrefl, if_false, hw]
    refine congrArg some ?_
    push_cast
    ring
  | cons x b1 ih =>
    intro b2 i n hlen hin hn
    cases b2 with
    | nil => simp at hlen
    | cons y b2 =>
      simp only [List.length_cons] at hlen hin
      have hlen2 : b1.length = b2.length := by omega
      have hi : (i : Int) < (n : Int) := by omega
      have hxy : x.val ^^^ y.val < 256 :=
        Nat.xor_lt_two_pow (n := 8) x.isLt y.isLt
      have hmod : (x.val ^^^ y.val) % 256 = x.val ^^^ y.val := Nat.mod_eq_of_lt hxy
      by_cases ha : x.val ^^^ y.val = 0
      · -- the two bytes are equal: `continue`
        have hxyeq : x = y := Fin.ext (Nat.xor_eq_zero.mp ha)
        subst hxyeq
        obtain ⟨k, hk, hle, hpre, hdiff, heq⟩ := ih b2 (i + 1) n hlen2 (by omega) hn
        refine ⟨k + 8, ?_, by simp only [List.length_cons]; omega, ?_, ?_, ?_⟩
        · simp only [common_bits_loop, hi, if_true, hmod, ha]
          have hk2 : common_bits_loop (n : Int) b1 b2 ((i : Int) + 1)
              = some ((8 * (i + 1) + k : Nat) : Int) := by
            have := hk
            simpa using this
          rw [hk2]
          refine congrArg some ?_
          push_cast
          ring
        · intro j hj
          by_cases hj8 : j < 8
          · rw [seqBit_cons_lt _ _ _ hj8, seqBit_cons_lt _ _ _ hj8]
          · obtain ⟨j2, rfl⟩ : ∃ j2, j = j2 + 8 := ⟨j - 8, by omega⟩
            rw [seqBit_cons_add, seqBit_cons_add]
            exact hpre j2 (by omega)
        · intro hlt
          rw [seqBit_cons_add, seqBit_cons_add]
          exact hdiff (by simp only [List.length_cons] at hlt; omega)
        · simp only [List.length_cons, List.cons.injEq, true_and]
          rw [← heq]
          omega
      · -- the first differing byte
        have hl8 : (x.val ^^^ y.val).log2 < 8 := (Nat.log2_lt ha).mpr (by simpa using hxy)
        have hlt : x.val ^^^ y.val < 2 ^ ((x.val ^^^ y.val).log2 + 1) := Nat.lt_log2_self
        have hge : 2 ^ (x.val ^^^ y.val).log2 ≤ x.val ^^^ y.val := Nat.log2_self_le ha
        obtain ⟨hagree, hdiffer⟩ := xor_top_bit x.val y.val ((x.val ^^^ y.val).log2 + 1)
          (by omega) hlt (by simpa using hge)
        have hw1 : toInt32 ((i : Int) * 8) = (i : Int) * 8 :=
          toInt32_of_range _ (by omega) (by omega)
        have hw2 : toInt32 ((i : Int) * 8 + 8) = (i : Int) * 8 + 8 :=
          toInt32_of_range _ (by omega) (by omega)
        have hshift := common_bits_shift_eq ((x.val ^^^ y.val).log2 + 1) 8 (x.val ^^^ y.val)
          ((i : Int) * 8 + 8) (by omega) hlt (Or.inr (by simpa using hge))
          (by push_cast; omega) (by omega)
        have hne : x ≠ y := by
          intro h
          apply ha
          rw [h]
          exact Nat.xor_self _
        generalize (x.val ^^^ y.val).log2 = l at hl8 hagree hdiffer hshift
        refine ⟨7 - l, ?_, by simp only [List.length_cons]; omega, ?_, ?_, ?_⟩
        · simp only [common_bits_loop, hi, if_true, hmod, ha, if_false, hw1, hw2, hshift]
          refine congrArg some ?_
          push_cast
          omega
        · intro j hj
          have hj8 : j < 8 := by omega
          rw [seqBit_cons_lt _ _ _ hj8, seqBit_cons_lt _ _ _ hj8]
          exact hagree (7 - j) (by omega)
        · intro _
          have hk8 : 7 - l < 8 := by omega
          rw [seqBit_cons_lt _ _ _ hk8, seqBit_cons_lt _ _ _ hk8]
          have e : 7 - (7 - l) = l + 1 - 1 := by omega
          rw [e]
          exact hdiffer
        · simp only [List.length_cons, List.cons.injEq]
          constructor
          · intro h
            omega
          · intro h
            exact absurd h.1 hne

theorem commonPrefixFrom_eq (b1 b2 : List Byte) : ∀ (r s k : Nat), k ≤ r →
    (∀ j, j < k → seqBit b1 (s + j) = seqBit b2 (s + j)) →
    (k < r → seqBit b1 (s + k) ≠ seqBit b2 (s + k)) →
    commonPrefixFrom b1 b2 r s = k := by
  intro r
  induction r with
  | zero =>
    intro s k hk _ _
    simp only [commonPrefixFrom]
    omega
  | succ r ih =>
    intro s k hk hpre hdiff
    cases k with
    | zero =>
      have h := hdiff (by omega)
      simp only [Nat.add_zero] at h
      simp [commonPrefixFrom, h]
    | succ k =>
      have h0 := hpre 0 (by omega)
      simp only [Nat.add_zero] at h0
      simp only [commonPrefixFrom, h0, if_true]
      rw [ih (s + 1) k (by omega) ?_ ?_]
      · omega
      · intro j hj
        have := hpre (j + 1) (by omega)
        simpa [Nat.add_assoc, Nat.add_comm 1 j] using this
      · intro hlt
        have := hdiff (by omega)
        simpa [Nat.add_assoc, Nat.add_comm 1 k] using this

/-- On equal pointers the outer loop of `common_bits` never finds a differing
byte and returns `(int)n * 8` as stored in an `int`. -/
theorem common_bits_loop_self (n : Int) : ∀ (b : List Byte) (i : Int),
    i + b.length = n → common_bits_loop n b b i = some (toInt32 (n * 8)) := by
  intro b
  induction b with
  | nil =>
    intro i hi
    have : ¬ i < n := by simp only [List.length_nil] at hi; omega
    simp [common_bits_loop, this]
  | cons x b ih =>
    intro i hi
    simp only [List.length_cons] at hi
    have hlt : i < n := by push_cast at hi; omega
    simp only [common_bits_loop, hlt, if_true, Nat.xor_self, Nat.zero_mod]
    exact ih (i + 1) (by push_cast at hi ⊢; omega)

/-- The function `common_bits` on sequences of length `n` whose `8 * n` bits
fit an `int`: the result is the longest-common-prefix length `k`, described by
its defining properties. -/
theorem common_bits_eq (b1 b2 : List Byte) (n : Nat) (h1 : b1.length = n)
    (h2 : b2.length = n) (hn : 8 * n ≤ 2147483647) :
    common_bits b1 b2 n = some (commonPrefixLen b1 b2 : Int)
      ∧ commonPrefixLen b1 b2 ≤ 8 * n
      ∧ (∀ j, j < commonPrefixLen b1 b2 → seqBit b1 j = seqBit b2 j)
      ∧ (commonPrefixLen b1 b2 < 8 * n →
          seqBit b1 (commonPrefixLen b1 b2) ≠ seqBit b2 (commonPrefixLen b1 b2))
      ∧ (commonPrefixLen b1 b2 = 8 * n ↔ b1 = b2) := by
  obtain ⟨k, hk, hle, hpre, hdiff, heq⟩ :=
    common_bits_loop_spec b1 b2 0 n (by omega) (by omega) hn
  have hkl : commonPrefixLen b1 b2 = k := by
    unfold commonPrefixLen
    apply commonPrefixFrom_eq
    · exact hle
    · intro j hj
      simpa using hpre j hj
    · intro hlt
      simpa using hdiff hlt
  have hw : toInt32 (n : Int) = (n : Int) := toInt32_of_range _ (by omega) (by omega)
  rw [hkl]
  subst h1
  refine ⟨?_, hle, hpre, hdiff, heq⟩
  unfold common_bits
  rw [hw]
  have := hk
  simpa using this

theorem commonPrefixLen_self (b : List Byte) : commonPrefixLen b b = 8 * b.length := by
  unfold commonPrefixLen
  apply commonPrefixFrom_eq
  · exact le_refl _
  · intro j _
    rfl
  · intro h
    exact absurd h (lt_irrefl _)

theorem commonPrefixFrom_comm (b1 b2 : List Byte) : ∀ (r s : Nat),
    commonPrefixFrom b1 b2 r s = commonPrefixFrom b2 b1 r s := by
  intro r
  induction r with
  | zero => intro s; rfl
  | succ r ih =>
    intro s
    simp only [commonPrefixFrom, ih (s + 1), eq_comm]

/-- The final subtraction of `cidr_distance` on two arrays of the same size
`n` (4 or 16). -/
theorem cidr_distance_core (b1 b2 : List Byte) (n : Nat) (h1 : b1.length = n)
    (h2 : b2.length = n) (hn : n ≤ 16) :
    (common_bits b1 b2 b1.length).map
        (fun c => toInt32 (toInt32 ((b1.length * 8 : Nat) : Int) - c))
      = some ((8 * n : Nat) - (commonPrefixLen b1 b2 : Nat) : Int)
      ∧ commonPrefixLen b1 b2 ≤ 8 * n := by
  obtain ⟨hcb, hle, -, -, -⟩ := common_bits_eq b1 b2 n h1 h2 (by omega)
  refine ⟨?_, hle⟩
  rw [h1, hcb]
  have hw1 : toInt32 ((n * 8 : Nat) : Int) = ((n * 8 : Nat) : Int) :=
    toInt32_of_range _ (by omega) (by omega)
  have hw2 : toInt32 (((n * 8 : Nat) : Int) - (commonPrefixLen b1 b2 : Int))
      = ((n * 8 : Nat) : Int) - (commonPrefixLen b1 b2 : Int) :=
    toInt32_of_range _ (by omega) (by omega)
  simp only [Option.map_some', hw1, hw2]
  refine congrArg some ?_
  push_cast
  ring

theorem v6_form_length (a : address) : (v6_form a).length = 16 := by
  cases a with
  | v4 x => simp [v6_form, address_v6.v4_mapped, address_v6.to_bytes, x.size_eq]
  | v6 x => simp [v6_form, address_v6.to_bytes, x.size_eq]

/-- Both-IPv4 branch of `cidr_distance`. -/
theorem cidr_distance_v4 (x y : address_v4) :
    cidr_distance (address.v4 x) (address.v4 y)
      = some ((32 : Int) - (commonPrefixLen x.to_bytes y.to_bytes : Nat))
      ∧ commonPrefixLen x.to_bytes y.to_bytes ≤ 32 := by
  obtain ⟨h, hle⟩ := cidr_distance_core x.to_bytes y.to_bytes 4 x.size_eq y.size_eq (by omega)
  refine ⟨?_, by omega⟩
  have h4 : Option.map (fun c => toInt32 (toInt32 ((x.to_bytes.length * 8 : Nat) : Int) - c))
      (common_bits x.to_bytes y.to_bytes x.to_bytes.length)
      = some ((32 : Int) - (commonPrefixLen x.to_bytes y.to_bytes : Nat)) := by
    rw [h]
    refine congrArg some ?_
    push_cast
    ring
  exact h4

/-- The 16-byte branch of `cidr_distance`, taken as soon as one operand is
IPv6. -/
theorem cidr_distance_v6 (a1 a2 : address) (h : ¬ (a1.is_v4 = true ∧ a2.is_v4 = true)) :
    cidr_distance a1 a2
      = some ((128 : Int) - (commonPrefixLen (v6_form a1) (v6_form a2) : Nat))
      ∧ commonPrefixLen (v6_form a1) (v6_form a2) ≤ 128 := by
  obtain ⟨hc, hle⟩ := cidr_distance_core (v6_form a1) (v6_form a2) 16 (v6_form_length a1)
    (v6_form_length a2) (le_refl _)
  have hc1 : Option.map (fun c => toInt32 (toInt32 (((v6_form a1).length * 8 : Nat) : Int) - c))
      (common_bits (v6_form a1) (v6_form a2) (v6_form a1).length)
      = some ((128 : Int) - (commonPrefixLen (v6_form a1) (v6_form a2) : Nat)) := by
    rw [hc]
    refine congrArg some ?_
    push_cast
    ring
  refine ⟨?_, by omega⟩
  cases a1 with
  | v4 x =>
    cases a2 with
    | v4 y => simp [address.is_v4] at h
    | v6 y =>
      exact hc1
  | v6 x =>
    cases a2 with
    | v4 y =>
      exact hc1
    | v6 y =>
      exact hc1

/-! ## Bit masks -/

theorem and_high (q r m i : Nat) (hr : r < 2 ^ i) :
    (2 ^ i * q + r) &&& (2 ^ i * m) = 2 ^ i * (q &&& m) := by
  apply Nat.eq_of_testBit_eq
  intro j
  rw [Nat.testBit_and, Nat.testBit_mul_pow_two_add _ hr, Nat.testBit_mul_pow_two,
    Nat.testBit_mul_pow_two, Nat.testBit_and]
  by_cases hj : j < i
  · have : ¬ i ≤ j := by omega
    simp [hj, this]
  · have : i ≤ j := by omega
    simp [hj, this]

/-- Masking a `(i + w)`-bit number with `w` one bits above `i` zero bits clears
its low `i` bits. -/
theorem and_mask (x i w : Nat) (hx : x < 2 ^ (i + w)) :
    x &&& (2 ^ i * (2 ^ w - 1)) = 2 ^ i * (x / 2 ^ i) := by
  have hdm : 2 ^ i * (x / 2 ^ i) + x % 2 ^ i = x := Nat.div_add_mod x (2 ^ i)
  have hq : x / 2 ^ i < 2 ^ w := by
    apply Nat.div_lt_of_lt_mul
    rw [← pow_add]; exact hx
  conv_lhs => rw [← hdm]
  rw [and_high _ _ _ _ (Nat.mod_lt _ (Nat.two_pow_pos i)), Nat.and_pow_two_sub_one_eq_mod,
    Nat.mod_eq_of_lt hq]

theorem mask_ff000000 (x : Nat) (hx : x < 4294967296) :
    x &&& 0xff000000 = 16777216 * (x / 16777216) := by
  have := and_mask x 24 8 (by norm_num; exact hx)
  norm_num at this
  exact this

theorem mask_fff00000 (x : Nat) (hx : x < 4294967296) :
    x &&& 0xfff00000 = 1048576 * (x / 1048576) := by
  have := and_mask x 20 12 (by norm_num; exact hx)
  norm_num at this
  exact this

theorem mask_ffff0000 (x : Nat) (hx : x < 4294967296) :
    x &&& 0xffff0000 = 65536 * (x / 65536) := by
  have := and_mask x 16 16 (by norm_num; exact hx)
  norm_num at this
  exact this

theorem mask_c0 (x : Nat) (hx : x < 256) : x &&& 0xc0 = 64 * (x / 64) := by
  have := and_mask x 6 2 (by norm_num; exact hx)
  norm_num at this
  exact this

/-! ## Address shapes -/

theorem address_v4.bytes_four (a : address_v4) :
    ∃ b0 b1 b2 b3 : Byte, a.bytes = [b0, b1, b2, b3] := by
  obtain ⟨bytes, hsz⟩ := a
  match bytes, hsz with
  | [b0, b1, b2, b3], _ => exact ⟨b0, b1, b2, b3, rfl⟩

theorem address_v6.bytes_head (a : address_v6) :
    ∃ (b0 b1 b2 b3 : Byte) (rest : List Byte), a.bytes = b0 :: b1 :: b2 :: b3 :: rest := by
  obtain ⟨bytes, hsz, scope⟩ := a
  match bytes, hsz with
  | b0 :: b1 :: b2 :: b3 :: rest, _ => exact ⟨b0, b1, b2, b3, rest, rfl⟩

theorem address_v4.to_ulong_eq (a : address_v4) :
    a.to_ulong = ((a.octet 0 * 256 + a.octet 1) * 256 + a.octet 2) * 256 + a.octet 3
      ∧ a.octet 0 < 256 ∧ a.octet 1 < 256 ∧ a.octet 2 < 256 ∧ a.octet 3 < 256 := by
  obtain ⟨b0, b1, b2, b3, h⟩ := a.bytes_four
  simp only [address_v4.to_ulong, address_v4.octet, h]
  refine ⟨by simp, b0.isLt, b1.isLt, b2.isLt, b3.isLt⟩

/-! ## The scan of `guess_local_address` -/

/-- The scan returns at the first globally routable IPv4 entry, whatever it has
remembered so far. -/
theorem guess_local_address_loop_global (pre : List ip_interface) (i : ip_interface)
    (post : List ip_interface)
    (hpre : ∀ j ∈ pre, global_v4 j.interface_address = false)
    (hi : global_v4 i.interface_address = true) :
    ∀ ret, guess_local_address_loop (pre ++ i :: post) ret = i.interface_address := by
  induction pre with
  | nil =>
    intro ret
    simp only [global_v4, usable, Bool.and_eq_true, Bool.not_eq_true'] at hi
    obtain ⟨⟨hu, hv4⟩, hloc⟩ := hi
    simp [guess_local_address_loop, hu, hv4, hloc]
  | cons j pre ih =>
    intro ret
    have hj : global_v4 j.interface_address = false := hpre j (List.mem_cons_self _ _)
    have ih2 := ih (fun k hk => hpre k (List.mem_cons_of_mem _ hk))
    simp only [List.cons_append, guess_local_address_loop]
    split
    · exact ih2 _
    · rename_i hskip
      split
      · rename_i hv4
        split
        · rename_i hloc
          exfalso
          have : global_v4 j.interface_address = true := by
            simp only [global_v4, usable, Bool.and_eq_true]
            refine ⟨⟨?_, hv4⟩, hloc⟩
            simpa using hskip
          rw [hj] at this
          exact Bool.false_ne_true this
        · exact ih2 _
      · split
        · exact ih2 _
        · exact ih2 _

/-- Over entries that are all skipped the scan keeps what it has remembered. -/
theorem guess_local_address_loop_skip (l : List ip_interface)
    (hl : ∀ i ∈ l, usable i.interface_address = false) :
    ∀ ret, guess_local_address_loop l ret = guess_local_address_loop [] ret := by
  induction l with
  | nil => intro ret; rfl
  | cons j l ih =>
    intro ret
    have hj : usable j.interface_address = false := hl j (List.mem_cons_self _ _)
    have hskip : (is_loopback j.interface_address || is_multicast j.interface_address
        || is_any j.interface_address) = true := by
      simpa only [usable, Bool.not_eq_false'] using hj
    simp only [guess_local_address_loop, hskip, if_true]
    exact ih (fun k hk => hl k (List.mem_cons_of_mem _ hk)) ret

/-! ## Claims on `common_bits` and `cidr_distance` -/

/-- C1 (as stated, refuted): on two equal sequences of `n = 2^28` zero bytes
the claim promises `8 * n = 2^31`, which no `int` holds; the stored result of
`(int)n * 8` is `-2^31`. -/
theorem common_bits_int_overflow :
    common_bits (List.replicate 268435456 0) (List.replicate 268435456 0) 268435456
        = some (-2147483648)
      ∧ common_bits (List.replicate 268435456 0) (List.replicate 268435456 0) 268435456
        ≠ some ((8 * 268435456 : Nat) : Int) := by
  have hw : toInt32 ((268435456 : Nat) : Int) = 268435456 := by decide
  have hv : toInt32 ((268435456 : Int) * 8) = -2147483648 := by decide
  have h : common_bits (List.replicate 268435456 0) (List.replicate 268435456 0) 268435456
      = some (-2147483648) := by
    unfold common_bits
    rw [hw, common_bits_loop_self 268435456 (List.replicate 268435456 0) 0
      (by rw [List.length_replicate]; rfl), hv]
  refine ⟨h, ?_⟩
  rw [h]
  decide

/-- C1 (amended): for byte sequences `b1`, `b2` of the same length `n` whose
`8 * n` bits fit the `int` result (`8 * n ≤ 2^31 - 1`, `n = 0` included),
`common_bits b1 b2 n` returns the length `k` of the longest common bit prefix
read most-significant-bit first: `k ≤ 8 * n`, the first `k` bits agree, no
longer prefix agrees, `k = 8 * n` exactly when the sequences are equal, and
otherwise bit `k` of `b1` differs from bit `k` of `b2`. -/
theorem common_bits_longest_common_prefix (b1 b2 : List Byte) (n : Nat)
    (h1 : b1.length = n) (h2 : b2.length = n) (hn : 8 * n ≤ 2147483647) :
    ∃ k : Nat, common_bits b1 b2 n = some (k : Int)
      ∧ k ≤ 8 * n
      ∧ (∀ j, j < k → seqBit b1 j = seqBit b2 j)
      ∧ (∀ k2, k2 ≤ 8 * n → (∀ j, j < k2 → seqBit b1 j = seqBit b2 j) → k2 ≤ k)
      ∧ (k = 8 * n ↔ b1 = b2)
      ∧ (k ≠ 8 * n → seqBit b1 k ≠ seqBit b2 k)
      ∧ k = commonPrefixLen b1 b2 := by
  obtain ⟨hcb, hle, hpre, hdiff, heq⟩ := common_bits_eq b1 b2 n h1 h2 hn
  refine ⟨commonPrefixLen b1 b2, hcb, hle, hpre, ?_, heq, ?_, rfl⟩
  · intro k2 hk2 hagree
    by_contra hlt
    have hlt2 : commonPrefixLen b1 b2 < k2 := by omega
    exact hdiff (by omega) (hagree _ hlt2)
  · intro hne
    exact hdiff (by omega)

/-- C1 witness: the one-byte sequences `0xFF`, `0x00` give 0 and `0xFF`, `0xFF`
give 8, and the theorem applies to the first pair. -/
theorem common_bits_longest_common_prefix_witness :
    (common_bits [0xFF] [0x00] 1 = some 0 ∧ common_bits [0xFF] [0xFF] 1 = some 8)
      ∧ ∃ k : Nat, common_bits [0xFF] [0x00] 1 = some (k : Int)
        ∧ k ≤ 8 * 1
        ∧ (∀ j, j < k → seqBit [0xFF] j = seqBit [0x00] j)
        ∧ (∀ k2, k2 ≤ 8 * 1 → (∀ j, j < k2 → seqBit [0xFF] j = seqBit [0x00] j) → k2 ≤ k)
        ∧ (k = 8 * 1 ↔ ([0xFF] : List Byte) = [0x00])
        ∧ (k ≠ 8 * 1 → seqBit [0xFF] k ≠ seqBit [0x00] k)
        ∧ k = commonPrefixLen [0xFF] [0x00] :=
  ⟨⟨by decide, by decide⟩,
    common_bits_longest_common_prefix [0xFF] [0x00] 1 rfl rfl (by decide)⟩

/-- C2: `cidr_distance` of two IPv4 addresses is 32 minus the common bit prefix
length of their 4-byte forms and lies in 0..32; as soon as one operand is IPv6
it is 128 minus the common bit prefix length of the 16-byte forms, an IPv4
operand being replaced by its IPv4-mapped form `::ffff:a.b.c.d`, and lies in
0..128; and `cidr_distance (1.2.3.4, 1.2.3.5) = 1`. -/
theorem cidr_distance_prefix_complement :
    (∀ x y : address_v4,
        cidr_distance (address.v4 x) (address.v4 y)
            = some ((32 : Int) - (commonPrefixLen x.to_bytes y.to_bytes : Nat))
          ∧ commonPrefixLen x.to_bytes y.to_bytes ≤ 32)
      ∧ (∀ (x : address_v4) (y : address_v6),
        cidr_distance (address.v4 x) (address.v6 y)
            = some ((128 : Int)
                - (commonPrefixLen (address_v6.v4_mapped x).to_bytes y.to_bytes : Nat))
          ∧ commonPrefixLen (address_v6.v4_mapped x).to_bytes y.to_bytes ≤ 128)
      ∧ (∀ (x : address_v6) (y : address_v4),
        cidr_distance (address.v6 x) (address.v4 y)
            = some ((128 : Int)
                - (commonPrefixLen x.to_bytes (address_v6.v4_mapped y).to_bytes : Nat))
          ∧ commonPrefixLen x.to_bytes (address_v6.v4_mapped y).to_bytes ≤ 128)
      ∧ (∀ x y : address_v6,
        cidr_distance (address.v6 x) (address.v6 y)
            = some ((128 : Int) - (commonPrefixLen x.to_bytes y.to_bytes : Nat))
          ∧ commonPrefixLen x.to_bytes y.to_bytes ≤ 128)
      ∧ cidr_distance (address.v4 ⟨[1, 2, 3, 4], rfl⟩) (address.v4 ⟨[1, 2, 3, 5], rfl⟩)
          = some 1 := by
  refine ⟨cidr_distance_v4, ?_, ?_, ?_, by decide⟩
  · intro x y
    exact cidr_distance_v6 (address.v4 x) (address.v6 y) (by simp [address.is_v4])
  · intro x y
    exact cidr_distance_v6 (address.v6 x) (address.v4 y) (by simp [address.is_v4])
  · intro x y
    exact cidr_distance_v6 (address.v6 x) (address.v6 y) (by simp [address.is_v4])

/-- C3: `cidr_distance` is symmetric for every pair of addresses, whatever their
families: `cidr_distance a b = cidr_distance b a`. -/
theorem cidr_distance_symmetric (a b : address) :
    cidr_distance a b = cidr_distance b a := by
  by_cases h : a.is_v4 = true ∧ b.is_v4 = true
  · cases a with
    | v6 x => simp [address.is_v4] at h
    | v4 x =>
      cases b with
      | v6 y => simp [address.is_v4] at h
      | v4 y =>
        rw [(cidr_distance_v4 x y).1, (cidr_distance_v4 y x).1]
        have hx : x.to_bytes.length = 4 := x.size_eq
        have hy : y.to_bytes.length = 4 := y.size_eq
        simp only [commonPrefixLen, hx, hy]
        rw [commonPrefixFrom_comm]
  · have h2 : ¬ (b.is_v4 = true ∧ a.is_v4 = true) := fun hh => h ⟨hh.2, hh.1⟩
    rw [(cidr_distance_v6 a b h).1, (cidr_distance_v6 b a h2).1]
    simp only [commonPrefixLen, v6_form_length]
    rw [commonPrefixFrom_comm]

/-- C4: for every address `a`, IPv4 or IPv6, `cidr_distance a a = 0`. -/
theorem cidr_distance_self (a : address) : cidr_distance a a = some 0 := by
  cases a with
  | v4 x =>
    rw [(cidr_distance_v4 x x).1, commonPrefixLen_self]
    have hx : x.to_bytes.length = 4 := x.size_eq
    rw [hx]
    rfl
  | v6 x =>
    rw [(cidr_distance_v6 (address.v6 x) (address.v6 x) (by simp [address.is_v4])).1,
      commonPrefixLen_self, v6_form_length]
    rfl

/-! ## Claims on the address classification -/

/-- C5: an IPv4 address is `is_local` exactly when it lies in 10.0.0.0/8
(first octet 10), 172.16.0.0/12 (first octet 172, second octet 16..31) or
192.168.0.0/16 (octets 192.168), so 172.15.255.255, 172.32.0.0 and 8.8.8.8 are
not local; an IPv6 address is `is_local` exactly when it is link-local,
fe80::/10 (first octet 0xfe, second octet 0x80..0xbf). -/
theorem is_local_iff :
    (∀ a : address_v4, is_local (address.v4 a) = true ↔
        (a.octet 0 = 10
          ∨ (a.octet 0 = 172 ∧ 16 ≤ a.octet 1 ∧ a.octet 1 ≤ 31)
          ∨ (a.octet 0 = 192 ∧ a.octet 1 = 168)))
      ∧ is_local (address.v4 ⟨[172, 15, 255, 255], rfl⟩) = false
      ∧ is_local (address.v4 ⟨[172, 32, 0, 0], rfl⟩) = false
      ∧ is_local (address.v4 ⟨[8, 8, 8, 8], rfl⟩) = false
      ∧ (∀ a : address_v6, is_local (address.v6 a) = true ↔
        (a.octet 0 = 0xfe ∧ 0x80 ≤ a.octet 1 ∧ a.octet 1 ≤ 0xbf)) := by
  refine ⟨?_, by decide, by decide, by decide, ?_⟩
  · intro a
    obtain ⟨hip, h0, h1, h2, h3⟩ := a.to_ulong_eq
    have hlt : a.to_ulong < 4294967296 := by omega
    simp only [is_local, Bool.or_eq_true, beq_iff_eq]
    rw [mask_ff000000 _ hlt, mask_fff00000 _ hlt, mask_ffff0000 _ hlt, hip]
    omega
  · intro a
    obtain ⟨b0, b1, b2, b3, rest, h⟩ := a.bytes_head
    have hb1 : b1.val < 256 := b1.isLt
    simp only [is_local, address_v6.is_link_local, address_v6.octet, h, Bool.and_eq_true,
      beq_iff_eq, List.getD_cons_zero, List.getD_cons_succ]
    rw [mask_c0 _ hb1]
    omega

/-! ## Claims on `guess_local_address` -/

/-- C6: when the interface list holds a globally routable IPv4 address (IPv4,
not loopback, not multicast, not wildcard, not `is_local`),
`guess_local_address` returns the first such address in list order, whatever
private IPv4 or IPv6 entries stand before or after it. -/
theorem guess_local_address_first_global (pre : List ip_interface) (i : ip_interface)
    (post : List ip_interface)
    (hpre : ∀ j ∈ pre, global_v4 j.interface_address = false)
    (hi : global_v4 i.interface_address = true) :
    guess_local_address (pre ++ i :: post) = i.interface_address :=
  guess_local_address_loop_global pre i post hpre hi _

/-- C6 witness: for the global 8.8.8.8 and the private 10.0.0.1 the global one
is returned in both orderings. -/
theorem guess_local_address_first_global_witness :
    guess_local_address
        [⟨address.v4 ⟨[8, 8, 8, 8], rfl⟩⟩, ⟨address.v4 ⟨[10, 0, 0, 1], rfl⟩⟩]
        = address.v4 ⟨[8, 8, 8, 8], rfl⟩
      ∧ guess_local_address
        [⟨address.v4 ⟨[10, 0, 0, 1], rfl⟩⟩, ⟨address.v4 ⟨[8, 8, 8, 8], rfl⟩⟩]
        = address.v4 ⟨[8, 8, 8, 8], rfl⟩ :=
  ⟨guess_local_address_first_global [] ⟨address.v4 ⟨[8, 8, 8, 8], rfl⟩⟩
      [⟨address.v4 ⟨[10, 0, 0, 1], rfl⟩⟩] (by decide) (by decide),
    guess_local_address_first_global [⟨address.v4 ⟨[10, 0, 0, 1], rfl⟩⟩]
      ⟨address.v4 ⟨[8, 8, 8, 8], rfl⟩⟩ [] (by decide) (by decide)⟩

/-- C7: over an interface list, the empty one included, in which every entry is
loopback, multicast or wildcard, `guess_local_address` returns the IPv4
loopback 127.0.0.1. -/
theorem guess_local_address_all_skipped (l : List ip_interface)
    (hl : ∀ i ∈ l, (is_loopback i.interface_address || is_multicast i.interface_address
        || is_any i.interface_address) = true) :
    guess_local_address l = address.v4 ⟨[127, 0, 0, 1], rfl⟩ := by
  unfold guess_local_address
  rw [guess_local_address_loop_skip l (fun i hi => by simp [usable, hl i hi])]
  rfl

/-- C7 witness: the list 127.0.0.1, 0.0.0.0, ::1, ff02::1, :: gives 127.0.0.1. -/
theorem guess_local_address_all_skipped_witness :
    guess_local_address
        [⟨address.v4 ⟨[127, 0, 0, 1], rfl⟩⟩, ⟨address.v4 ⟨[0, 0, 0, 0], rfl⟩⟩,
          ⟨address.v6 ⟨[0, 0, 0, 0, 0, 0, 0, 0, 0, 0, 0, 0, 0, 0, 0, 1], rfl, 0⟩⟩,
          ⟨address.v6 ⟨[0xff, 2, 0, 0, 0, 0, 0, 0, 0, 0, 0, 0, 0, 0, 0, 1], rfl, 0⟩⟩,
          ⟨address.v6 ⟨[0, 0, 0, 0, 0, 0, 0, 0, 0, 0, 0, 0, 0, 0, 0, 0], rfl, 0⟩⟩]
      = address.v4 ⟨[127, 0, 0, 1], rfl⟩ :=
  guess_local_address_all_skipped _ (by decide)

/-- C8 (code at the failing input): with the private IPv4 10.0.0.1 followed by
the IPv6 2001:db8::1 the list holds a usable IPv4 address, yet the result is
the IPv6 address: the test `ret != address_v4::any()` lets a later IPv6 entry
replace the remembered IPv4 candidate. -/
theorem guess_local_address_v6_replaces_v4 :
    usable (address.v4 ⟨[10, 0, 0, 1], rfl⟩) = true
      ∧ guess_local_address
          [⟨address.v4 ⟨[10, 0, 0, 1], rfl⟩⟩,
            ⟨address.v6 ⟨[0x20, 0x01, 0x0d, 0xb8, 0, 0, 0, 0, 0, 0, 0, 0, 0, 0, 0, 1], rfl, 0⟩⟩]
        = address.v6 ⟨[0x20, 0x01, 0x0d, 0xb8, 0, 0, 0, 0, 0, 0, 0, 0, 0, 0, 0, 1], rfl, 0⟩
      ∧ (guess_local_address
          [⟨address.v4 ⟨[10, 0, 0, 1], rfl⟩⟩,
            ⟨address.v6 ⟨[0x20, 0x01, 0x0d, 0xb8, 0, 0, 0, 0, 0, 0, 0, 0, 0, 0, 0, 1], rfl, 0⟩⟩]).is_v4
        = false := by
  decide

/-- C9 (code at the failing input): the list holding only the usable IPv6
address 2001:db8::1 has no IPv4 entry, yet the result is the IPv4 loopback
127.0.0.1 and not the IPv6 address: the test `ret != address_v4::any()` never
stores an IPv6 entry while nothing is remembered. -/
theorem guess_local_address_v6_only_loopback :
    usable (address.v6 ⟨[0x20, 0x01, 0x0d, 0xb8, 0, 0, 0, 0, 0, 0, 0, 0, 0, 0, 0, 1], rfl, 0⟩)
        = true
      ∧ guess_local_address
          [⟨address.v6 ⟨[0x20, 0x01, 0x0d, 0xb8, 0, 0, 0, 0, 0, 0, 0, 0, 0, 0, 0, 1], rfl, 0⟩⟩]
        = address.v4 ⟨[127, 0, 0, 1], rfl⟩ := by
  decide

/-- C10: `is_teredo` is a total boolean function; it is true exactly for the
IPv6 addresses whose first four octets are 0x20, 0x01, 0x00, 0x00, and false
for every IPv4 address. -/
theorem is_teredo_iff :
    (∀ a : address, is_teredo a = true ↔
        ∃ a6 : address_v6, a = address.v6 a6 ∧ a6.octet 0 = 0x20 ∧ a6.octet 1 = 0x01
          ∧ a6.octet 2 = 0x00 ∧ a6.octet 3 = 0x00)
      ∧ (∀ a4 : address_v4, is_teredo (address.v4 a4) = false)
      ∧ (∀ a : address, is_teredo a = true ∨ is_teredo a = false) := by
  refine ⟨?_, fun _ => rfl, fun a => by cases is_teredo a <;> simp⟩
  intro a
  cases a with
  | v4 a4 => simp [is_teredo]
  | v6 a6 =>
    obtain ⟨b0, b1, b2, b3, rest, h⟩ := a6.bytes_head
    have e : (b0 :: b1 :: b2 :: b3 :: rest).take 4 = [b0, b1, b2, b3] := rfl
    simp only [is_teredo, address_v6.to_bytes, address_v6.octet, h, address.v6.injEq,
      exists_eq_left', List.getD_cons_zero, List.getD_cons_succ, beq_iff_eq, e,
      List.cons.injEq, and_true, Fin.ext_iff]
    exact Iff.rfl

/-! ## Bit counts -/

/-- Among the first `n` numbers at most `n - k` satisfy a test that fails below
`k`. -/
theorem filter_range_le (p : Nat → Bool) (k n : Nat) (hk : k ≤ n)
    (hp : ∀ j, j < k → p j = false) : ((List.range n).filter p).length ≤ n - k := by
  obtain ⟨m, rfl⟩ : ∃ m, n = k + m := ⟨n - k, by omega⟩
  rw [List.range_add, List.filter_append]
  have h1 : (List.range k).filter p = [] := by
    rw [List.filter_eq_nil_iff]
    intro j hj
    rw [hp j (List.mem_range.mp hj)]
    exact Bool.false_ne_true
  rw [h1, List.nil_append]
  calc (List.filter p (List.map (fun x => k + x) (List.range m))).length
      ≤ (List.map (fun x => k + x) (List.range m)).length := List.length_filter_le _ _
    _ = m := by simp
    _ ≤ k + m - k := by omega

/-- The count `commonPrefixFrom` by its defining properties: the bits it counts
agree and, unless it ran out of bits, the next one differs. -/
theorem commonPrefixFrom_spec (b1 b2 : List Byte) : ∀ (r s : Nat),
    commonPrefixFrom b1 b2 r s ≤ r
      ∧ (∀ j, j < commonPrefixFrom b1 b2 r s → seqBit b1 (s + j) = seqBit b2 (s + j))
      ∧ (commonPrefixFrom b1 b2 r s < r →
          seqBit b1 (s + commonPrefixFrom b1 b2 r s) ≠ seqBit b2 (s + commonPrefixFrom b1 b2 r s)) := by
  intro r
  induction r with
  | zero =>
    intro s
    simp [commonPrefixFrom]
  | succ r ih =>
    intro s
    obtain ⟨h1, h2, h3⟩ := ih (s + 1)
    by_cases h : seqBit b1 s = seqBit b2 s
    · simp only [commonPrefixFrom, h, if_true]
      refine ⟨by omega, ?_, ?_⟩
      · intro j hj
        cases j with
        | zero => simpa using h
        | succ j =>
          have := h2 j (by omega)
          have e : s + (j + 1) = s + 1 + j := by omega
          rw [e]; exact this
      · intro hlt
        have := h3 (by omega)
        have e : s + (1 + commonPrefixFrom b1 b2 r (s + 1))
            = s + 1 + commonPrefixFrom b1 b2 r (s + 1) := by omega
        rw [e]; exact this
    · simp only [commonPrefixFrom, h, if_false]
      refine ⟨by omega, ?_, ?_⟩
      · intro j hj; omega
      · intro _; simpa using h

/-- The bits of the common prefix do not differ, so at most the others do. -/
theorem hammingDistance_le (b1 b2 : List Byte) :
    hammingDistance b1 b2 ≤ 8 * b1.length - commonPrefixLen b1 b2 := by
  obtain ⟨h1, h2, -⟩ := commonPrefixFrom_spec b1 b2 (8 * b1.length) 0
  unfold hammingDistance
  apply filter_range_le _ _ _ h1
  intro j hj
  have := h2 j hj
  simp only [Nat.zero_add] at this
  simp [this]

/-- The distance of two arrays of the same size `n` (4 or 16), by its defining
properties. -/
theorem distance_props (b1 b2 : List Byte) (n : Nat) (h1 : b1.length = n)
    (h2 : b2.length = n) (hn : n ≤ 16) :
    ∃ d : Nat, d + commonPrefixLen b1 b2 = 8 * n
      ∧ hammingDistance b1 b2 ≤ d
      ∧ (d = 0 ↔ b1 = b2)
      ∧ (∀ j, j < 8 * n - d → seqBit b1 j = seqBit b2 j)
      ∧ (0 < d → seqBit b1 (8 * n - d) ≠ seqBit b2 (8 * n - d)) := by
  obtain ⟨-, hle, hpre, hdiff, heq⟩ := common_bits_eq b1 b2 n h1 h2 (by omega)
  have hh := hammingDistance_le b1 b2
  rw [h1] at hh
  refine ⟨8 * n - commonPrefixLen b1 b2, by omega, hh, ?_, ?_, ?_⟩
  · rw [← heq]; omega
  · intro j hj
    exact hpre j (by omega)
  · intro hd
    have e : 8 * n - (8 * n - commonPrefixLen b1 b2) = commonPrefixLen b1 b2 := by omega
    rw [e]
    exact hdiff (by omega)

/-- An IPv4 address is determined by its four octets. -/
theorem address_v4.eq_of_bytes (x y : address_v4) (h : x.to_bytes = y.to_bytes) : x = y := by
  obtain ⟨bx, hx⟩ := x
  obtain ⟨b, hy⟩ := y
  simp only [address_v4.to_bytes] at h
  subst h
  rfl

/-- A common leading byte adds eight bits to the common prefix. -/
theorem commonPrefixFrom_cons_shift (p : Byte) (b1 b2 : List Byte) : ∀ (r s : Nat),
    commonPrefixFrom (p :: b1) (p :: b2) r (s + 8) = commonPrefixFrom b1 b2 r s := by
  intro r
  induction r with
  | zero => intro s; rfl
  | succ r ih =>
    intro s
    have e : s + 8 + 1 = s + 1 + 8 := by omega
    simp only [commonPrefixFrom, seqBit_cons_add, e, ih (s + 1)]

/-- Leading bits that agree are counted one by one. -/
theorem commonPrefixFrom_agree (b1 b2 : List Byte) : ∀ (m r s : Nat),
    (∀ j, j < m → seqBit b1 (s + j) = seqBit b2 (s + j)) →
    commonPrefixFrom b1 b2 (m + r) s = m + commonPrefixFrom b1 b2 r (s + m) := by
  intro m
  induction m with
  | zero => intro r s _; simp
  | succ m ih =>
    intro r s h
    have h0 := h 0 (by omega)
    simp only [Nat.add_zero] at h0
    have e : m + 1 + r = (m + r) + 1 := by omega
    rw [e]
    simp only [commonPrefixFrom, h0, if_true]
    rw [ih r (s + 1) (fun j hj => by
      have := h (j + 1) (by omega)
      have e2 : s + 1 + j = s + (j + 1) := by omega
      rw [e2]; exact this)]
    have e3 : s + 1 + m = s + (m + 1) := by omega
    rw [e3]
    omega

/-- A common first octet adds eight bits to the common prefix. -/
theorem commonPrefixLen_cons (p : Byte) (b1 b2 : List Byte) :
    commonPrefixLen (p :: b1) (p :: b2) = 8 + commonPrefixLen b1 b2 := by
  unfold commonPrefixLen
  have e : 8 * (p :: b1).length = 8 + 8 * b1.length := by
    simp only [List.length_cons]; omega
  rw [e, commonPrefixFrom_agree _ _ 8 _ 0 (fun j hj => by
    simp only [Nat.zero_add]
    rw [seqBit_cons_lt _ _ _ hj, seqBit_cons_lt _ _ _ hj])]
  rw [commonPrefixFrom_cons_shift]

/-- A common leading block of octets adds its bits to the common prefix. -/
theorem commonPrefixLen_append (p b1 b2 : List Byte) :
    commonPrefixLen (p ++ b1) (p ++ b2) = 8 * p.length + commonPrefixLen b1 b2 := by
  induction p with
  | nil => simp
  | cons x p ih =>
    simp only [List.cons_append, commonPrefixLen_cons, ih, List.length_cons]
    omega

/-! ## More on the scan of `guess_local_address` -/

/-- Over entries whose usable addresses are all private IPv4 the scan does not
return: it goes on with some remembered value. -/
theorem guess_local_address_loop_local (pre : List ip_interface)
    (hpre : ∀ j ∈ pre, usable j.interface_address = true →
      j.interface_address.is_v4 = true ∧ is_local j.interface_address = true)
    (rest : List ip_interface) :
    ∀ ret, ∃ ret2, guess_local_address_loop (pre ++ rest) ret
      = guess_local_address_loop rest ret2 := by
  induction pre with
  | nil => intro ret; exact ⟨ret, rfl⟩
  | cons j pre ih =>
    intro ret
    have ih2 := ih (fun k hk => hpre k (List.mem_cons_of_mem _ hk))
    have hj := hpre j (List.mem_cons_self _ _)
    simp only [List.cons_append, guess_local_address_loop]
    split
    · exact ih2 _
    · rename_i hskip
      have hu : usable j.interface_address = true := by
        simpa [usable] using hskip
      obtain ⟨hv4, hloc⟩ := hj hu
      simp only [hv4, hloc, if_true, Bool.not_true, Bool.false_eq_true, if_false]
      exact ih2 _

/-- The scan returns the IPv4 loopback or a usable address: the one it started
with or one of the list. -/
theorem guess_local_address_loop_result : ∀ (l : List ip_interface) (ret : address),
    (ret = address.v4 address_v4.any ∨ usable ret = true) →
    guess_local_address_loop l ret = address.v4 address_v4.loopback
      ∨ (usable (guess_local_address_loop l ret) = true
        ∧ (guess_local_address_loop l ret = ret
          ∨ ∃ i ∈ l, i.interface_address = guess_local_address_loop l ret)) := by
  intro l
  induction l with
  | nil =>
    intro ret hret
    simp only [guess_local_address_loop]
    split
    · exact Or.inl rfl
    · rename_i hne
      rcases hret with h | h
      · exact absurd h hne
      · exact Or.inr ⟨h, Or.inl rfl⟩
  | cons j l ih =>
    intro ret hret
    have lift : ∀ r2, (guess_local_address_loop l r2 = address.v4 address_v4.loopback
        ∨ (usable (guess_local_address_loop l r2) = true
          ∧ (guess_local_address_loop l r2 = r2
            ∨ ∃ i ∈ l, i.interface_address = guess_local_address_loop l r2))) →
        (r2 = ret ∨ r2 = j.interface_address) →
        (guess_local_address_loop l r2 = address.v4 address_v4.loopback
        ∨ (usable (guess_local_address_loop l r2) = true
          ∧ (guess_local_address_loop l r2 = ret
            ∨ ∃ i ∈ j :: l, i.interface_address = guess_local_address_loop l r2))) := by
      intro r2 h hr
      rcases h with h | ⟨hu, h⟩
      · exact Or.inl h
      · right
        refine ⟨hu, ?_⟩
        rcases h with h | ⟨i, hi, h⟩
        · rcases hr with hr | hr
          · left; rw [h, hr]
          · right
            exact ⟨j, List.mem_cons_self _ _, by rw [h, hr]⟩
        · right
          exact ⟨i, List.mem_cons_of_mem _ hi, h⟩
    simp only [guess_local_address_loop]
    split
    · exact lift ret (ih ret hret) (Or.inl rfl)
    · rename_i hskip
      have hu : usable j.interface_address = true := by simpa [usable] using hskip
      split
      · split
        · right
          exact ⟨hu, Or.inr ⟨j, List.mem_cons_self _ _, rfl⟩⟩
        · exact lift _ (ih _ (Or.inr hu)) (Or.inr rfl)
      · split
        · exact lift _ (ih _ (Or.inr hu)) (Or.inr rfl)
        · exact lift ret (ih ret hret) (Or.inl rfl)

/-! ## Further claims on the address functions -/

/-- C11: `is_any a` holds exactly when `a` is the IPv4 wildcard 0.0.0.0, the IPv6
wildcard `::` (the value `address_v6::any()`, scope id 0) or an IPv6 address
whose sixteen octets are those of the IPv4-mapped wildcard `::ffff:0.0.0.0`;
every other address is not any. In particular `::ffff:1.2.3.4` is not any, and
the IPv4-mapped form of an IPv4 address is any only for 0.0.0.0. -/
theorem is_any_iff :
    (∀ a : address, is_any a = true ↔
        (a = address.v4 address_v4.any ∨ a = address.v6 address_v6.any
          ∨ ∃ a6 : address_v6, a = address.v6 a6
              ∧ a6.to_bytes = [0, 0, 0, 0, 0, 0, 0, 0, 0, 0, 0xff, 0xff, 0, 0, 0, 0]))
      ∧ is_any (address.v4 ⟨[0, 0, 0, 0], rfl⟩) = true
      ∧ is_any (address.v6 ⟨[0, 0, 0, 0, 0, 0, 0, 0, 0, 0, 0, 0, 0, 0, 0, 0], rfl, 0⟩) = true
      ∧ is_any (address.v6 ⟨[0, 0, 0, 0, 0, 0, 0, 0, 0, 0, 0xff, 0xff, 0, 0, 0, 0], rfl, 0⟩)
          = true
      ∧ is_any (address.v6 ⟨[0, 0, 0, 0, 0, 0, 0, 0, 0, 0, 0xff, 0xff, 1, 2, 3, 4], rfl, 0⟩)
          = false
      ∧ (∀ a4 : address_v4, is_any (address.v6 (address_v6.v4_mapped a4)) = true ↔
          a4 = address_v4.any) := by
  refine ⟨?_, by decide, by decide, by decide, by decide, ?_⟩
  · intro a
    cases a with
    | v4 a4 =>
      simp [is_any]
    | v6 a6 =>
      have hsplit : a6.bytes.take 12 ++ a6.bytes.drop 12 = a6.bytes := List.take_append_drop 12 _
      by_cases hm : a6.is_v4_mapped = true
      · have hm2 : a6.bytes.take 12 = [0, 0, 0, 0, 0, 0, 0, 0, 0, 0, 0xff, 0xff] := by
          simpa [address_v6.is_v4_mapped] using hm
        simp only [is_any, hm, if_true, beq_iff_eq, address.v6.injEq, exists_eq_left', false_or,
          reduceCtorEq]
        constructor
        · intro h
          right
          have hd : a6.bytes.drop 12 = [0, 0, 0, 0] := by
            have := congrArg address_v4.bytes h
            simpa [address_v6.to_v4, address_v4.any] using this
          rw [address_v6.to_bytes, ← hsplit, hm2, hd]
          rfl
        · rintro (h | h)
          · subst h
            exact absurd hm (by decide)
          · obtain ⟨bytes, hsz, scope⟩ := a6
            simp only [address_v6.to_bytes] at h
            subst h
            rfl
      · have hm3 : a6.is_v4_mapped = false := by simpa using hm
        simp only [is_any, hm3, beq_iff_eq, address.v6.injEq, exists_eq_left', false_or,
          reduceCtorEq, Bool.false_eq_true, if_false]
        constructor
        · intro h; exact Or.inl h
        · rintro (h | h)
          · exact h
          · exfalso
            apply hm
            simp only [address_v6.to_bytes] at h
            simp [address_v6.is_v4_mapped, h]
  · intro a4
    obtain ⟨b0, b1, b2, b3, h⟩ := a4.bytes_four
    obtain ⟨bytes, hsz⟩ := a4
    simp only at h
    subst h
    simp [is_any, address_v6.is_v4_mapped, address_v6.v4_mapped, address_v6.to_v4, address_v4.any]

/-- C16 (as stated, refuted): the 32-bit forms of 0.0.0.0 and 0.0.0.2 differ at
one bit position, so their Hamming distance is 1, while `cidr_distance` is 2:
it counts every position from the first differing one on. -/
theorem cidr_distance_not_hamming :
    cidr_distance (address.v4 ⟨[0, 0, 0, 0], rfl⟩) (address.v4 ⟨[0, 0, 0, 2], rfl⟩) = some 2
      ∧ hammingDistance (address_v4.to_bytes ⟨[0, 0, 0, 0], rfl⟩)
          (address_v4.to_bytes ⟨[0, 0, 0, 2], rfl⟩) = 1
      ∧ cidr_distance (address.v4 ⟨[0, 0, 0, 0], rfl⟩) (address.v4 ⟨[0, 0, 0, 2], rfl⟩)
        ≠ some ((hammingDistance (address_v4.to_bytes ⟨[0, 0, 0, 0], rfl⟩)
          (address_v4.to_bytes ⟨[0, 0, 0, 2], rfl⟩) : Nat) : Int) := by
  decide

/-- C16 (amended): `cidr_distance` is the number `d` of bit positions from the
first differing one, read from the most significant end, through the last:
for two IPv4 addresses `d` plus the common prefix length of the 32-bit forms
is 32, the first `32 - d` bits agree and, unless `d = 0`, bit `32 - d` differs;
`d = 0` exactly for equal addresses; and `d` is at least the Hamming distance.
Likewise over the 128-bit forms as soon as one operand is IPv6. -/
theorem cidr_distance_from_first_difference :
    (∀ x y : address_v4, ∃ d : Nat,
        cidr_distance (address.v4 x) (address.v4 y) = some (d : Int)
          ∧ d + commonPrefixLen x.to_bytes y.to_bytes = 32
          ∧ hammingDistance x.to_bytes y.to_bytes ≤ d
          ∧ (d = 0 ↔ x = y)
          ∧ (∀ j, j < 32 - d → seqBit x.to_bytes j = seqBit y.to_bytes j)
          ∧ (0 < d → seqBit x.to_bytes (32 - d) ≠ seqBit y.to_bytes (32 - d)))
      ∧ (∀ a1 a2 : address, ¬ (a1.is_v4 = true ∧ a2.is_v4 = true) → ∃ d : Nat,
        cidr_distance a1 a2 = some (d : Int)
          ∧ d + commonPrefixLen (v6_form a1) (v6_form a2) = 128
          ∧ hammingDistance (v6_form a1) (v6_form a2) ≤ d
          ∧ (d = 0 ↔ v6_form a1 = v6_form a2)
          ∧ (∀ j, j < 128 - d → seqBit (v6_form a1) j = seqBit (v6_form a2) j)
          ∧ (0 < d → seqBit (v6_form a1) (128 - d) ≠ seqBit (v6_form a2) (128 - d))) := by
  constructor
  · intro x y
    obtain ⟨d, hd, hh, h0, hpre, hdiff⟩ :=
      distance_props x.to_bytes y.to_bytes 4 x.size_eq y.size_eq (by omega)
    refine ⟨d, ?_, hd, hh, ?_, hpre, hdiff⟩
    · rw [(cidr_distance_v4 x y).1]
      refine congrArg some ?_
      omega
    · rw [h0]
      constructor
      · exact address_v4.eq_of_bytes x y
      · intro h; rw [h]
  · intro a1 a2 hv
    obtain ⟨d, hd, hh, h0, hpre, hdiff⟩ :=
      distance_props (v6_form a1) (v6_form a2) 16 (v6_form_length a1) (v6_form_length a2)
        (le_refl _)
    refine ⟨d, ?_, hd, hh, h0, hpre, hdiff⟩
    rw [(cidr_distance_v6 a1 a2 hv).1]
    refine congrArg some ?_
    omega

/-- C18: when every usable (not loopback, not multicast, not wildcard) address of
the interface list is a private IPv4 address (`is_local`) and there is at least
one, `guess_local_address` returns the last of them in list order: the list is
`pre ++ i :: post` with `i` usable and nothing usable in `post`. -/
theorem guess_local_address_last_local (pre : List ip_interface) (i : ip_interface)
    (post : List ip_interface)
    (hpre : ∀ j ∈ pre, usable j.interface_address = true →
      j.interface_address.is_v4 = true ∧ is_local j.interface_address = true)
    (hi : usable i.interface_address = true ∧ i.interface_address.is_v4 = true
      ∧ is_local i.interface_address = true)
    (hpost : ∀ j ∈ post, usable j.interface_address = false) :
    guess_local_address (pre ++ i :: post) = i.interface_address := by
  obtain ⟨hu, hv4, hloc⟩ := hi
  obtain ⟨ret2, h⟩ := guess_local_address_loop_local pre hpre (i :: post)
    (address.v4 address_v4.any)
  unfold guess_local_address
  rw [h]
  have hskip : (is_loopback i.interface_address || is_multicast i.interface_address
      || is_any i.interface_address) = false := by
    simpa [usable] using hu
  simp only [guess_local_address_loop, hskip, hv4, hloc, if_true, Bool.not_true,
    Bool.false_eq_true, if_false]
  rw [guess_local_address_loop_skip post hpost]
  have hne : i.interface_address ≠ address.v4 address_v4.any := by
    intro he
    rw [he] at hskip
    revert hskip
    decide
  simp only [guess_local_address_loop, hne, if_false]

/-- C18 witness: of the private 10.0.0.1 and 192.168.1.1, followed by the
loopback, the later one 192.168.1.1 is returned. -/
theorem guess_local_address_last_local_witness :
    guess_local_address
        [⟨address.v4 ⟨[10, 0, 0, 1], rfl⟩⟩, ⟨address.v4 ⟨[192, 168, 1, 1], rfl⟩⟩,
          ⟨address.v4 ⟨[127, 0, 0, 1], rfl⟩⟩]
      = address.v4 ⟨[192, 168, 1, 1], rfl⟩ :=
  guess_local_address_last_local [⟨address.v4 ⟨[10, 0, 0, 1], rfl⟩⟩]
    ⟨address.v4 ⟨[192, 168, 1, 1], rfl⟩⟩ [⟨address.v4 ⟨[127, 0, 0, 1], rfl⟩⟩]
    (by decide) (by decide) (by decide)

/-- C19: the two branches of `cidr_distance` agree on IPv4 addresses `a`, `b`: the
4-byte branch gives the value the 16-byte branch gives for the IPv4-mapped
forms, and the same value for each mixed pair; hence an IPv4 address and its
own IPv4-mapped IPv6 form, two different addresses, are at distance 0. -/
theorem cidr_distance_mapped_agree (a b : address_v4) :
    cidr_distance (address.v4 a) (address.v4 b)
        = cidr_distance (address.v6 (address_v6.v4_mapped a)) (address.v6 (address_v6.v4_mapped b))
      ∧ cidr_distance (address.v4 a) (address.v4 b)
        = cidr_distance (address.v4 a) (address.v6 (address_v6.v4_mapped b))
      ∧ cidr_distance (address.v4 a) (address.v4 b)
        = cidr_distance (address.v6 (address_v6.v4_mapped a)) (address.v4 b)
      ∧ cidr_distance (address.v4 a) (address.v6 (address_v6.v4_mapped a)) = some 0
      ∧ cidr_distance (address.v6 (address_v6.v4_mapped a)) (address.v4 a) = some 0
      ∧ address.v4 a ≠ address.v6 (address_v6.v4_mapped a) := by
  have hle := (cidr_distance_v4 a b).2
  have key : ∀ x y : address_v4, (128 : Int) - (commonPrefixLen
      ((address_v6.v4_mapped x).to_bytes) ((address_v6.v4_mapped y).to_bytes) : Nat)
      = (32 : Int) - (commonPrefixLen x.to_bytes y.to_bytes : Nat) := by
    intro x y
    simp only [address_v6.v4_mapped, address_v6.to_bytes, address_v4.to_bytes,
      commonPrefixLen_append]
    simp only [List.length_cons, List.length_nil]
    push_cast
    ring
  have h66 := (cidr_distance_v6 (address.v6 (address_v6.v4_mapped a))
    (address.v6 (address_v6.v4_mapped b)) (by simp [address.is_v4])).1
  have h46 := (cidr_distance_v6 (address.v4 a)
    (address.v6 (address_v6.v4_mapped b)) (by simp [address.is_v4])).1
  have h64 := (cidr_distance_v6 (address.v6 (address_v6.v4_mapped a))
    (address.v4 b) (by simp [address.is_v4])).1
  have haa := (cidr_distance_v6 (address.v4 a)
    (address.v6 (address_v6.v4_mapped a)) (by simp [address.is_v4])).1
  have haa2 := (cidr_distance_v6 (address.v6 (address_v6.v4_mapped a))
    (address.v4 a) (by simp [address.is_v4])).1
  simp only [v6_form] at h66 h46 h64 haa haa2
  rw [key] at h66 h46 h64 haa haa2
  have hself : ((32 : Int) - (commonPrefixLen a.to_bytes a.to_bytes : Nat)) = 0 := by
    rw [commonPrefixLen_self]
    have : a.to_bytes.length = 4 := a.size_eq
    rw [this]; rfl
  rw [hself] at haa haa2
  rw [(cidr_distance_v4 a b).1]
  exact ⟨h66.symm, h46.symm, h64.symm, haa, haa2, by simp⟩

/-- C20: for every interface list the result of `guess_local_address` is neither
a wildcard nor a multicast address: it is the IPv4 loopback 127.0.0.1 or the
address of an entry of the list that is not loopback, not multicast and not
wildcard. The result is a function of the ordered list alone. -/
theorem guess_local_address_result (l : List ip_interface) :
    is_any (guess_local_address l) = false
      ∧ is_multicast (guess_local_address l) = false
      ∧ (guess_local_address l = address.v4 ⟨[127, 0, 0, 1], rfl⟩
        ∨ ∃ i ∈ l, i.interface_address = guess_local_address l
            ∧ is_loopback i.interface_address = false
            ∧ is_multicast i.interface_address = false
            ∧ is_any i.interface_address = false) := by
  have h := guess_local_address_loop_result l (address.v4 address_v4.any) (Or.inl rfl)
  unfold guess_local_address
  rcases h with h | ⟨hu, h⟩
  · rw [h]
    exact ⟨by decide, by decide, Or.inl rfl⟩
  · have hu2 : (is_loopback (guess_local_address_loop l (address.v4 address_v4.any))
        || is_multicast (guess_local_address_loop l (address.v4 address_v4.any))
        || is_any (guess_local_address_loop l (address.v4 address_v4.any))) = false := by
      simpa [usable] using hu
    simp only [Bool.or_eq_false_iff] at hu2
    obtain ⟨⟨hlo, hmc⟩, hany⟩ := hu2
    refine ⟨hany, hmc, ?_⟩
    rcases h with h | ⟨i, hi, h⟩
    · exfalso
      rw [h] at hany
      revert hany
      decide
    · right
      refine ⟨i, hi, h, ?_, ?_, ?_⟩
      · rw [h]; exact hlo
      · rw [h]; exact hmc
      · rw [h]; exact hany

/-! ## Lists of operations -/

theorem operation.calls_append {H : Type} (a b : List (operation H)) :
    operation.calls (a ++ b) = operation.calls a + operation.calls b := by
  induction a with
  | nil => simp [operation.calls]
  | cons x a ih =>
    cases x
    · simp [operation.calls, ih]
    · simp [operation.calls, ih]
    · simp [operation.calls, ih]; omega

theorem operation.receives_append {H : Type} (a b : List (operation H)) :
    operation.receives (a ++ b) = operation.receives a ++ operation.receives b := by
  induction a with
  | nil => simp [operation.receives]
  | cons x a ih =>
    cases x <;> simp [operation.receives, ih]

/-- The loop of `send` submits one send for each entry whose handle is set, in
list order. -/
theorem send_loop_eq {H : Type} (buf : List Byte) (ep : endpoint) :
    ∀ l : List socket_entry, (broadcast_socket.send_loop buf ep l : List (operation H))
      = l.filterMap fun e => e.socket.map fun socket => operation.async_send_to socket buf ep := by
  intro l
  induction l with
  | nil => rfl
  | cons i rest ih =>
    cases hi : i.socket with
    | none => simp [broadcast_socket.send_loop, hi, ih]
    | some socket => simp [broadcast_socket.send_loop, hi, ih]

/-- The loop of `send` calls no callback and starts no receive. -/
theorem send_loop_quiet {H : Type} (buf : List Byte) (ep : endpoint) :
    ∀ l : List socket_entry,
      operation.calls (broadcast_socket.send_loop buf ep l : List (operation H)) = 0
        ∧ operation.receives (broadcast_socket.send_loop buf ep l : List (operation H)) = [] := by
  intro l
  induction l with
  | nil => exact ⟨rfl, rfl⟩
  | cons i rest ih =>
    cases hi : i.socket with
    | none => simpa [broadcast_socket.send_loop, hi] using ih
    | some socket =>
      simpa [broadcast_socket.send_loop, hi, operation.calls, operation.receives] using ih

/-! ## Receive completions -/

/-- With the callback unset `on_receive` returns at once. -/
theorem on_receive_unset {H : Type}
    (run : H → endpoint → List Byte → Int → broadcast_socket H → broadcast_socket H)
    (self : broadcast_socket H) (h : self.m_on_receive = none) (s : socket_entry_ptr)
    (ec : Bool) (n : Nat) : self.on_receive run s ec n = some (self, []) := by
  simp [broadcast_socket.on_receive, h]

theorem deliver_unset {H : Type}
    (run : H → endpoint → List Byte → Int → broadcast_socket H → broadcast_socket H)
    (self : broadcast_socket H) (h : self.m_on_receive = none) :
    ∀ completions, broadcast_socket.deliver run self completions = some (self, []) := by
  intro completions
  induction completions with
  | nil => rfl
  | cons c rest ih =>
    obtain ⟨s, ec, n⟩ := c
    simp only [broadcast_socket.deliver, on_receive_unset run self h, ih, List.append_nil]

/-- With the callback unset an event calls no callback, starts no receive and
leaves the callback unset. -/
theorem step_unset {H : Type}
    (run : H → endpoint → List Byte → Int → broadcast_socket H → broadcast_socket H)
    (entry_close : socket_entry → socket_entry)
    (w w1 : reactor H) (e : event) (ops : List (operation H))
    (h : w.self.m_on_receive = none) (hst : w.step run entry_close e = some (w1, ops)) :
    operation.calls ops = 0 ∧ operation.receives ops = []
      ∧ w1.self.m_on_receive = none := by
  cases e with
  | completion s ec n =>
    simp only [reactor.step, on_receive_unset run w.self h] at hst
    by_cases hs : s ∈ w.outstanding
    · simp only [hs, if_true, Option.some.injEq, Prod.mk.injEq] at hst
      obtain ⟨rfl, rfl⟩ := hst
      exact ⟨rfl, rfl, h⟩
    · simp [hs] at hst
  | send buf =>
    simp only [reactor.step, Option.some.injEq, Prod.mk.injEq] at hst
    obtain ⟨rfl, rfl⟩ := hst
    obtain ⟨h1, h2⟩ := send_loop_quiet (H := H) buf w.self.m_multicast_endpoint
      w.self.m_unicast_sockets
    exact ⟨h1, h2, h⟩
  | close =>
    simp only [reactor.step, Option.some.injEq, Prod.mk.injEq] at hst
    obtain ⟨rfl, rfl⟩ := hst
    exact ⟨rfl, rfl, rfl⟩

theorem steps_cons {H : Type}
    (run : H → endpoint → List Byte → Int → broadcast_socket H → broadcast_socket H)
    (entry_close : socket_entry → socket_entry)
    (w w2 : reactor H) (e : event) (rest : List event) (ops : List (operation H))
    (hst : reactor.steps run entry_close w (e :: rest) = some (w2, ops)) :
    ∃ w1 ops1 ops2, w.step run entry_close e = some (w1, ops1)
      ∧ reactor.steps run entry_close w1 rest = some (w2, ops2) ∧ ops = ops1 ++ ops2 := by
  simp only [reactor.steps] at hst
  cases h1 : w.step run entry_close e with
  | none => rw [h1] at hst; simp at hst
  | some r1 =>
    obtain ⟨w1, ops1⟩ := r1
    rw [h1] at hst
    simp only at hst
    cases h2 : reactor.steps run entry_close w1 rest with
    | none => rw [h2] at hst; simp at hst
    | some r2 =>
      obtain ⟨w3, ops2⟩ := r2
      rw [h2] at hst
      simp only [Option.some.injEq, Prod.mk.injEq] at hst
      obtain ⟨rfl, rfl⟩ := hst
      exact ⟨w1, ops1, ops2, rfl, h2, rfl⟩

theorem steps_unset {H : Type}
    (run : H → endpoint → List Byte → Int → broadcast_socket H → broadcast_socket H)
    (entry_close : socket_entry → socket_entry) :
    ∀ (evs : List event) (w w2 : reactor H) (ops : List (operation H)),
      w.self.m_on_receive = none → reactor.steps run entry_close w evs = some (w2, ops) →
      operation.calls ops = 0 ∧ operation.receives ops = []
        ∧ w2.self.m_on_receive = none := by
  intro evs
  induction evs with
  | nil =>
    intro w w2 ops h hst
    simp only [reactor.steps, Option.some.injEq, Prod.mk.injEq] at hst
    obtain ⟨rfl, rfl⟩ := hst
    exact ⟨rfl, rfl, h⟩
  | cons e rest ih =>
    intro w w2 ops h hst
    obtain ⟨w1, ops1, ops2, h1, h2, rfl⟩ := steps_cons run entry_close w w2 e rest ops hst
    obtain ⟨a1, a2, a3⟩ := step_unset run entry_close w w1 e ops1 h h1
    obtain ⟨b1, b2, b3⟩ := ih w1 w2 ops2 a3 h2
    rw [operation.calls_append, operation.receives_append, a1, a2, b1, b2]
    exact ⟨rfl, rfl, b3⟩

/-- The successful path of `on_receive`: the callback is set, there is no error
and the byte count is not zero. -/
theorem on_receive_call {H : Type}
    (run : H → endpoint → List Byte → Int → broadcast_socket H → broadcast_socket H)
    (self : broadcast_socket H) (s : socket_entry_ptr) (e e1 : socket_entry) (h : H)
    (n : Nat) (hs : self.deref s = some e) (hh : self.m_on_receive = some h) (hn : n ≠ 0)
    (hs1 : (run h e.remote e.buffer (toInt32 n) self).deref s = some e1) :
    self.on_receive run s false n
      = some (run h e.remote e.buffer (toInt32 n) self,
          operation.m_on_receive h e.remote e.buffer (toInt32 n)
            :: (match e1.socket with
                | some socket => [operation.async_receive_from socket s]
                | none => [])) := by
  have hg : (false || n == 0 || self.m_on_receive.isNone) = false := by
    simp [hh, hn]
  unfold broadcast_socket.on_receive
  rw [if_neg (by rw [hg]; exact Bool.false_ne_true)]
  simp only [hh, hs, hs1]
  cases e1.socket <;> rfl

/-- Whatever `on_receive` does, it calls the callback at most once and starts
at most one receive, on the entry of the completion. -/
theorem on_receive_ops {H : Type}
    (run : H → endpoint → List Byte → Int → broadcast_socket H → broadcast_socket H)
    (self : broadcast_socket H) (s : socket_entry_ptr) (ec : Bool) (n : Nat)
    (r : broadcast_socket H × List (operation H))
    (hr : self.on_receive run s ec n = some r) :
    operation.calls r.2 ≤ 1
      ∧ (operation.receives r.2 = [] ∨ operation.receives r.2 = [s]) := by
  unfold broadcast_socket.on_receive at hr
  split at hr
  · simp only [Option.some.injEq] at hr
    subst hr
    exact ⟨by simp [operation.calls], Or.inl rfl⟩
  · split at hr
    · simp only at hr
      split at hr
      · simp at hr
      · split at hr
        · simp only [Option.some.injEq] at hr
          subst hr
          exact ⟨by simp [operation.calls], Or.inl rfl⟩
        · simp only [Option.some.injEq] at hr
          subst hr
          exact ⟨by simp [operation.calls], Or.inr rfl⟩
    · simp at hr

/-- An event keeps the outstanding receives free of repetitions: a completion
ends the receive of its entry before `on_receive` may start the next one. -/
theorem step_nodup {H : Type}
    (run : H → endpoint → List Byte → Int → broadcast_socket H → broadcast_socket H)
    (entry_close : socket_entry → socket_entry)
    (w w2 : reactor H) (ev : event) (ops : List (operation H))
    (hnd : w.outstanding.Nodup) (hst : w.step run entry_close ev = some (w2, ops)) :
    w2.outstanding.Nodup := by
  cases ev with
  | completion s ec n =>
    simp only [reactor.step] at hst
    by_cases hs : s ∈ w.outstanding
    · simp only [hs, if_true] at hst
      cases hr : w.self.on_receive run s ec n with
      | none => rw [hr] at hst; simp at hst
      | some r =>
        rw [hr] at hst
        simp only [Option.some.injEq, Prod.mk.injEq] at hst
        obtain ⟨rfl, rfl⟩ := hst
        obtain ⟨-, h2⟩ := on_receive_ops run w.self s ec n r hr
        rcases h2 with h2 | h2
        · simp only [h2, List.append_nil]
          exact hnd.erase s
        · simp only [h2]
          rw [List.nodup_append]
          refine ⟨hnd.erase s, List.nodup_singleton s, ?_⟩
          intro a ha hb
          simp only [List.mem_singleton] at hb
          subst hb
          exact hnd.not_mem_erase ha
    · simp [hs] at hst
  | send buf =>
    simp only [reactor.step, Option.some.injEq, Prod.mk.injEq] at hst
    obtain ⟨rfl, rfl⟩ := hst
    exact hnd
  | close =>
    simp only [reactor.step, Option.some.injEq, Prod.mk.injEq] at hst
    obtain ⟨rfl, rfl⟩ := hst
    exact hnd

theorem steps_nodup {H : Type}
    (run : H → endpoint → List Byte → Int → broadcast_socket H → broadcast_socket H)
    (entry_close : socket_entry → socket_entry) :
    ∀ (evs : List event) (w w2 : reactor H) (ops : List (operation H)),
      w.outstanding.Nodup → reactor.steps run entry_close w evs = some (w2, ops) →
      w2.outstanding.Nodup := by
  intro evs
  induction evs with
  | nil =>
    intro w w2 ops h hst
    simp only [reactor.steps, Option.some.injEq, Prod.mk.injEq] at hst
    obtain ⟨rfl, rfl⟩ := hst
    exact h
  | cons e rest ih =>
    intro w w2 ops h hst
    obtain ⟨w1, ops1, ops2, h1, h2, rfl⟩ := steps_cons run entry_close w w2 e rest ops hst
    exact ih w1 w2 ops2 (step_nodup run entry_close w w1 e ops1 h h1) h2

/-- Closing the object closes the entry behind every pointer. -/
theorem deref_close {H : Type} (entry_close : socket_entry → socket_entry)
    (self : broadcast_socket H) (s : socket_entry_ptr) :
    (self.close entry_close).deref s = (self.deref s).map entry_close := by
  cases s <;> simp [broadcast_socket.deref, broadcast_socket.close]

/-! ## Construction -/

theorem expected_unicast_sockets_skip (ios : io_service) (isV4 : Bool) (k : Nat)
    (i : ip_interface) (rest : List ip_interface) (h : qualifies isV4 i = false) :
    expected_unicast_sockets ios isV4 k (i :: rest) = expected_unicast_sockets ios isV4 k rest := by
  simp [expected_unicast_sockets, List.filter_cons, h]

theorem expected_unicast_sockets_fail (ios : io_service) (isV4 : Bool) (k : Nat)
    (i : ip_interface) (rest : List ip_interface) (h : qualifies isV4 i = true)
    (hf : (ios.open_ec k || ios.bind_ec k) = true) :
    expected_unicast_sockets ios isV4 k (i :: rest)
      = expected_unicast_sockets ios isV4 (k + 1) rest := by
  simp only [expected_unicast_sockets, List.filter_cons, h, if_true, List.enumFrom_cons,
    List.filterMap_cons, hf]

theorem expected_unicast_sockets_ok (ios : io_service) (isV4 : Bool) (k : Nat)
    (i : ip_interface) (rest : List ip_interface) (h : qualifies isV4 i = true)
    (hf : (ios.open_ec k || ios.bind_ec k) = false) :
    expected_unicast_sockets ios isV4 k (i :: rest)
      = unicast_entry k i.interface_address :: expected_unicast_sockets ios isV4 (k + 1) rest := by
  simp only [expected_unicast_sockets, List.filter_cons, h, if_true, List.enumFrom_cons,
    List.filterMap_cons, hf, Bool.false_eq_true, if_false]

/-- The loop of the constructor appends the expected entries to the unicast
list, touches no other member, and starts one receive on each new entry. -/
theorem open_unicast_sockets_spec {H : Type} (isV4 : Bool) :
    ∀ (interfaces : List ip_interface) (ios : io_service) (self : broadcast_socket H),
      (broadcast_socket.open_unicast_sockets isV4 interfaces ios self).2.1.m_unicast_sockets
          = self.m_unicast_sockets
            ++ expected_unicast_sockets ios isV4 ios.created interfaces
        ∧ (broadcast_socket.open_unicast_sockets isV4 interfaces ios self).2.1.m_sockets
          = self.m_sockets
        ∧ (broadcast_socket.open_unicast_sockets isV4 interfaces ios self).2.1.m_on_receive
          = self.m_on_receive
        ∧ (broadcast_socket.open_unicast_sockets isV4 interfaces ios self).2.1.m_multicast_endpoint
          = self.m_multicast_endpoint
        ∧ operation.receives
            (broadcast_socket.open_unicast_sockets isV4 interfaces ios self).2.2
          = (List.range' self.m_unicast_sockets.length
              (expected_unicast_sockets ios isV4 ios.created interfaces).length).map
              socket_entry_ptr.m_unicast_sockets := by
  intro interfaces
  induction interfaces with
  | nil =>
    intro ios self
    simp [broadcast_socket.open_unicast_sockets, expected_unicast_sockets, operation.receives]
  | cons i rest ih =>
    intro ios self
    by_cases hq : qualifies isV4 i = true
    · have hq2 := hq
      simp only [qualifies, Bool.and_eq_true, beq_iff_eq, Bool.not_eq_true'] at hq2
      obtain ⟨⟨h1, h2⟩, h3⟩ := hq2
      have hne : (i.interface_address.is_v4 != isV4) = false := by simp [h1]
      by_cases hf : (ios.open_ec ios.created || ios.bind_ec ios.created) = true
      · rw [expected_unicast_sockets_fail ios isV4 _ i rest hq hf]
        have hstep : broadcast_socket.open_unicast_socket ios self i.interface_address
            = (⟨ios.created + 1, ios.open_ec, ios.reuse_address_ec, ios.bind_ec,
                ios.join_group_ec, ios.hops_ec, ios.enable_loopback_ec⟩, self, []) := by
          simp only [Bool.or_eq_true] at hf
          rcases hf with hf | hf
          · simp [broadcast_socket.open_unicast_socket, hf]
          · cases ho : ios.open_ec ios.created <;>
              simp [broadcast_socket.open_unicast_socket, hf, ho]
        simp only [broadcast_socket.open_unicast_sockets, hne, h2, h3, hstep,
          Bool.false_eq_true, if_false, List.nil_append]
        exact ih _ self
      · have hf2 : (ios.open_ec ios.created || ios.bind_ec ios.created) = false := by
          simpa using hf
        rw [expected_unicast_sockets_ok ios isV4 _ i rest hq hf2]
        simp only [Bool.or_eq_false_iff] at hf2
        obtain ⟨ho, hb⟩ := hf2
        have hstep : broadcast_socket.open_unicast_socket ios self i.interface_address
            = (⟨ios.created + 1, ios.open_ec, ios.reuse_address_ec, ios.bind_ec,
                ios.join_group_ec, ios.hops_ec, ios.enable_loopback_ec⟩,
              ⟨self.m_multicast_endpoint, self.m_on_receive, self.m_sockets,
                self.m_unicast_sockets ++ [unicast_entry ios.created i.interface_address]⟩,
              [operation.async_receive_from
                ⟨ios.created, i.interface_address.is_v4, ⟨i.interface_address, 0⟩, false,
                  none, none, none⟩
                (socket_entry_ptr.m_unicast_sockets self.m_unicast_sockets.length)]) := by
          simp [broadcast_socket.open_unicast_socket, ho, hb, unicast_entry]
        simp only [broadcast_socket.open_unicast_sockets, hne, h2, h3, hstep,
          Bool.false_eq_true, if_false]
        obtain ⟨a1, a2, a3, a4, a5⟩ := ih
          ⟨ios.created + 1, ios.open_ec, ios.reuse_address_ec, ios.bind_ec,
            ios.join_group_ec, ios.hops_ec, ios.enable_loopback_ec⟩
          ⟨self.m_multicast_endpoint, self.m_on_receive, self.m_sockets,
            self.m_unicast_sockets ++ [unicast_entry ios.created i.interface_address]⟩
        have e1 : expected_unicast_sockets
            ⟨ios.created + 1, ios.open_ec, ios.reuse_address_ec, ios.bind_ec,
              ios.join_group_ec, ios.hops_ec, ios.enable_loopback_ec⟩ isV4 (ios.created + 1) rest
            = expected_unicast_sockets ios isV4 (ios.created + 1) rest := rfl
        dsimp only at a1 a5
        rw [e1] at a1 a5
        refine ⟨?_, a2, a3, a4, ?_⟩
        · rw [a1, List.append_assoc]
          rfl
        · rw [operation.receives_append, a5]
          simp only [operation.receives, List.length_append, List.length_cons, List.length_nil,
            List.range'_succ, List.map_cons, List.singleton_append, Nat.zero_add]
    · have hq2 : qualifies isV4 i = false := by simpa using hq
      rw [expected_unicast_sockets_skip ios isV4 _ i rest hq2]
      have hloop : broadcast_socket.open_unicast_sockets isV4 (i :: rest) ios self
          = broadcast_socket.open_unicast_sockets isV4 rest ios self := by
        simp only [qualifies, Bool.and_eq_false_iff, Bool.not_eq_false', beq_eq_false_iff_ne,
          ne_eq] at hq2
        rw [broadcast_socket.open_unicast_sockets]
        rcases hq2 with (h | h) | h
        · have : (i.interface_address.is_v4 != isV4) = true := by simpa using h
          simp [this]
        · simp [h]
        · simp [h]
      rw [hloop]
      exact ih ios self

/-- The set-up of the group socket numbers one socket, leaves the unicast list,
the endpoint and the callback alone, and starts at most one receive, on the
entry it appends. -/
theorem open_multicast_socket_spec {H : Type} (ios : io_service) (self : broadcast_socket H)
    (addr : address) (loopback : Bool) :
    (broadcast_socket.open_multicast_socket ios self addr loopback).1
        = ⟨ios.created + 1, ios.open_ec, ios.reuse_address_ec, ios.bind_ec,
            ios.join_group_ec, ios.hops_ec, ios.enable_loopback_ec⟩
      ∧ (broadcast_socket.open_multicast_socket ios self addr loopback).2.1.m_unicast_sockets
        = self.m_unicast_sockets
      ∧ (broadcast_socket.open_multicast_socket ios self addr loopback).2.1.m_on_receive
        = self.m_on_receive
      ∧ (broadcast_socket.open_multicast_socket ios self addr loopback).2.1.m_multicast_endpoint
        = self.m_multicast_endpoint
      ∧ (operation.receives (broadcast_socket.open_multicast_socket ios self addr loopback).2.2
          = []
        ∨ operation.receives (broadcast_socket.open_multicast_socket ios self addr loopback).2.2
          = [socket_entry_ptr.m_sockets self.m_sockets.length]) := by
  unfold broadcast_socket.open_multicast_socket
  simp only
  split
  · exact ⟨rfl, rfl, rfl, rfl, Or.inl rfl⟩
  · split
    · exact ⟨rfl, rfl, rfl, rfl, Or.inl rfl⟩
    · split
      · exact ⟨rfl, rfl, rfl, rfl, Or.inl rfl⟩
      · split
        · exact ⟨rfl, rfl, rfl, rfl, Or.inl rfl⟩
        · split
          · exact ⟨rfl, rfl, rfl, rfl, Or.inl rfl⟩
          · split
            · exact ⟨rfl, rfl, rfl, rfl, Or.inl rfl⟩
            · exact ⟨rfl, rfl, rfl, rfl, Or.inr rfl⟩

/-- The shape of a construction: the state after the optional group socket,
then the loop over the interfaces. -/
theorem construct_eq {H : Type} (ios : io_service) (interfaces : List ip_interface)
    (multicast_endpoint : endpoint) (handler : Option H) (loopback joingroup : Bool)
    (hm : is_multicast multicast_endpoint.address = true) :
    ∃ r : io_service × broadcast_socket H × List (operation H),
      broadcast_socket.construct ios interfaces multicast_endpoint handler loopback joingroup
          = some r
        ∧ r.2.1.m_unicast_sockets = expected_unicast_sockets ios
            multicast_endpoint.address.is_v4 (ios.created + if joingroup then 1 else 0) interfaces
        ∧ r.2.1.m_on_receive = handler
        ∧ r.2.1.m_multicast_endpoint = multicast_endpoint
        ∧ ((∃ p, operation.receives r.2.2 = p ++ (List.range' 0
              r.2.1.m_unicast_sockets.length).map socket_entry_ptr.m_unicast_sockets
            ∧ (p = [] ∨ p = [socket_entry_ptr.m_sockets 0]))) := by
  have e1 : ∀ n, expected_unicast_sockets
      ⟨ios.created + 1, ios.open_ec, ios.reuse_address_ec, ios.bind_ec,
        ios.join_group_ec, ios.hops_ec, ios.enable_loopback_ec⟩
      multicast_endpoint.address.is_v4 n interfaces
      = expected_unicast_sockets ios multicast_endpoint.address.is_v4 n interfaces :=
    fun _ => rfl
  cases joingroup with
  | false =>
    obtain ⟨a1, a2, a3, a4, a5⟩ := open_unicast_sockets_spec multicast_endpoint.address.is_v4
      interfaces ios (⟨multicast_endpoint, handler, [], []⟩ : broadcast_socket H)
    refine ⟨_, by simp only [broadcast_socket.construct, hm]; rfl, ?_, ?_, ?_, ?_⟩
    · simpa using a1
    · simpa using a3
    · simpa using a4
    · refine ⟨[], ?_, Or.inl rfl⟩
      simp only [List.nil_append, Bool.false_eq_true, if_false] at a5 ⊢
      rw [a5, a1]
      simp
  | true =>
    have hmc : ∀ addr, ∃ self1 : broadcast_socket H, ∃ ops1,
        broadcast_socket.open_multicast_socket ios
          (⟨multicast_endpoint, handler, [], []⟩ : broadcast_socket H) addr loopback
          = (⟨ios.created + 1, ios.open_ec, ios.reuse_address_ec, ios.bind_ec,
            ios.join_group_ec, ios.hops_ec, ios.enable_loopback_ec⟩, self1, ops1)
          ∧ self1.m_unicast_sockets = [] ∧ self1.m_on_receive = handler
          ∧ self1.m_multicast_endpoint = multicast_endpoint
          ∧ (operation.receives ops1 = []
            ∨ operation.receives ops1 = [socket_entry_ptr.m_sockets 0]) := by
      intro addr
      obtain ⟨b1, b2, b3, b4, b5⟩ := open_multicast_socket_spec ios
        (⟨multicast_endpoint, handler, [], []⟩ : broadcast_socket H) addr loopback
      refine ⟨_, _, ?_, b2, b3, b4, b5⟩
      rw [← b1]
    have hcase : ∃ self1 : broadcast_socket H, ∃ ops1,
        (if multicast_endpoint.address.is_v4 = true then
          broadcast_socket.open_multicast_socket ios
            (⟨multicast_endpoint, handler, [], []⟩ : broadcast_socket H)
            (address.v4 address_v4.any) loopback
        else
          broadcast_socket.open_multicast_socket ios
            (⟨multicast_endpoint, handler, [], []⟩ : broadcast_socket H)
            (address.v6 address_v6.any) loopback)
          = (⟨ios.created + 1, ios.open_ec, ios.reuse_address_ec, ios.bind_ec,
            ios.join_group_ec, ios.hops_ec, ios.enable_loopback_ec⟩, self1, ops1)
          ∧ self1.m_unicast_sockets = [] ∧ self1.m_on_receive = handler
          ∧ self1.m_multicast_endpoint = multicast_endpoint
          ∧ (operation.receives ops1 = []
            ∨ operation.receives ops1 = [socket_entry_ptr.m_sockets 0]) := by
      split
      · exact hmc _
      · exact hmc _
    obtain ⟨self1, ops1, hr1, c1, c2, c3, c4⟩ := hcase
    obtain ⟨a1, a2, a3, a4, a5⟩ := open_unicast_sockets_spec multicast_endpoint.address.is_v4
      interfaces ⟨ios.created + 1, ios.open_ec, ios.reuse_address_ec, ios.bind_ec,
            ios.join_group_ec, ios.hops_ec, ios.enable_loopback_ec⟩ self1
    dsimp only at a1 a5
    rw [e1, c1] at a1 a5
    simp only [List.nil_append, List.length_nil] at a1 a5
    refine ⟨_, by simp only [broadcast_socket.construct, hm, if_true, hr1]; rfl, ?_, ?_, ?_, ?_⟩
    · simpa using a1
    · simp only [a3, c2]
    · simp only [a4, c3]
    · refine ⟨operation.receives ops1, ?_, c4⟩
      simp only [operation.receives_append, a5, a1]

/-- The handles of the expected unicast list, spelled out. -/
theorem expected_unicast_sockets_handles (ios : io_service) (isV4 : Bool) (first : Nat)
    (interfaces : List ip_interface) :
    (expected_unicast_sockets ios isV4 first interfaces).map (fun e => e.socket)
      = (((interfaces.filter fun i =>
                i.interface_address.is_v4 == isV4
                  && !is_loopback i.interface_address && !is_any i.interface_address).enumFrom
              first).filterMap fun p =>
                if ios.open_ec p.1 || ios.bind_ec p.1 then none
                else some (some ⟨p.1, p.2.interface_address.is_v4, ⟨p.2.interface_address, 0⟩,
                  false, none, none, none⟩)) := by
  unfold expected_unicast_sockets
  rw [List.map_filterMap]
  congr 1
  funext p
  split <;> rfl

/-- The entries other than that of socket number `k` do not depend on the
outcome of the open and bind of socket number `k`. -/
theorem expected_unicast_sockets_other (ios ios2 : io_service) (isV4 : Bool) (k : Nat)
    (h : ∀ j, j ≠ k → ios2.open_ec j = ios.open_ec j ∧ ios2.bind_ec j = ios.bind_ec j) :
    ∀ (interfaces : List ip_interface) (first : Nat),
      (expected_unicast_sockets ios2 isV4 first interfaces).filter
          (fun e => e.socket.map datagram_socket.id != some k)
        = (expected_unicast_sockets ios isV4 first interfaces).filter
          (fun e => e.socket.map datagram_socket.id != some k) := by
  intro interfaces
  induction interfaces with
  | nil => intro first; rfl
  | cons i rest ih =>
    intro first
    by_cases hq : qualifies isV4 i = true
    · have hdrop : ∀ (io : io_service),
          (expected_unicast_sockets io isV4 first (i :: rest)).filter
              (fun e => e.socket.map datagram_socket.id != some first)
            = (expected_unicast_sockets io isV4 (first + 1) rest).filter
              (fun e => e.socket.map datagram_socket.id != some first) := by
        intro io
        by_cases hf : (io.open_ec first || io.bind_ec first) = true
        · rw [expected_unicast_sockets_fail io isV4 first i rest hq hf]
        · rw [expected_unicast_sockets_ok io isV4 first i rest hq (by simpa using hf)]
          simp [List.filter_cons, unicast_entry, socket_entry.init]
      by_cases hk : first = k
      · subst hk
        rw [hdrop ios2, hdrop ios]
        exact ih (first + 1)
      · obtain ⟨h1, h2⟩ := h first hk
        by_cases hf : (ios.open_ec first || ios.bind_ec first) = true
        · have hf2 : (ios2.open_ec first || ios2.bind_ec first) = true := by rw [h1, h2]; exact hf
          rw [expected_unicast_sockets_fail ios isV4 first i rest hq hf,
            expected_unicast_sockets_fail ios2 isV4 first i rest hq hf2]
          exact ih (first + 1)
        · have hf1 : (ios.open_ec first || ios.bind_ec first) = false := by simpa using hf
          have hf2 : (ios2.open_ec first || ios2.bind_ec first) = false := by
            rw [h1, h2]; exact hf1
          rw [expected_unicast_sockets_ok ios isV4 first i rest hq hf1,
            expected_unicast_sockets_ok ios2 isV4 first i rest hq hf2]
          simp only [List.filter_cons, ih (first + 1)]
    · have hq2 : qualifies isV4 i = false := by simpa using hq
      rw [expected_unicast_sockets_skip ios isV4 first i rest hq2,
        expected_unicast_sockets_skip ios2 isV4 first i rest hq2]
      exact ih first

/-- A construction starts at most one receive on each entry. -/
theorem construct_receives_nodup {H : Type} (ios : io_service)
    (interfaces : List ip_interface) (multicast_endpoint : endpoint) (handler : Option H)
    (loopback joingroup : Bool) (r : io_service × broadcast_socket H × List (operation H))
    (hr : broadcast_socket.construct ios interfaces multicast_endpoint handler loopback
      joingroup = some r) : (operation.receives r.2.2).Nodup := by
  have hm : is_multicast multicast_endpoint.address = true := by
    by_contra hm
    simp [broadcast_socket.construct, hm] at hr
  obtain ⟨r0, h1, -, -, -, p, h5, hp⟩ := construct_eq ios interfaces multicast_endpoint handler
    loopback joingroup hm
  rw [hr] at h1
  simp only [Option.some.injEq] at h1
  subst h1
  rw [h5]
  have hinj : Function.Injective socket_entry_ptr.m_unicast_sockets := by
    intro a b hab
    simpa using hab
  have hu : ((List.range' 0 r.2.1.m_unicast_sockets.length).map
      socket_entry_ptr.m_unicast_sockets).Nodup :=
    (List.nodup_range' 0 _).map hinj
  rcases hp with hp | hp
  · rw [hp, List.nil_append]
    exact hu
  · rw [hp, List.nodup_append]
    refine ⟨List.nodup_singleton _, hu, ?_⟩
    intro a ha hb
    simp only [List.mem_singleton] at ha
    subst ha
    simp at hb

/-! ## Claims on `broadcast_socket` -/

/-- C12: once `close()` has been applied, every receive completion delivered to
`on_receive`, for any entry, any error code and any byte count (a successful
non-zero one included), calls the receive callback zero times, starts no
receive and leaves the object as it is; so does every sequence of completions,
and every sequence of events (completions, sends, further closes) calls no
callback and starts no receive. This holds whatever `socket_entry::close` does
to an entry, because `close()` clears the callback. -/
theorem on_receive_after_close {H : Type}
    (run : H → endpoint → List Byte → Int → broadcast_socket H → broadcast_socket H)
    (entry_close : socket_entry → socket_entry) (self : broadcast_socket H) :
    (∀ (s : socket_entry_ptr) (ec : Bool) (n : Nat),
        (self.close entry_close).on_receive run s ec n = some (self.close entry_close, []))
      ∧ (∀ completions : List (socket_entry_ptr × Bool × Nat),
        broadcast_socket.deliver run (self.close entry_close) completions
          = some (self.close entry_close, []))
      ∧ (∀ (outstanding : List socket_entry_ptr) (evs : List event) (w2 : reactor H)
          (ops : List (operation H)),
        reactor.steps run entry_close ⟨self.close entry_close, outstanding⟩ evs
            = some (w2, ops) →
          operation.calls ops = 0 ∧ operation.receives ops = []) := by
  refine ⟨fun s ec n => on_receive_unset run _ rfl s ec n, deliver_unset run _ rfl, ?_⟩
  intro outstanding evs w2 ops hst
  obtain ⟨h1, h2, -⟩ := steps_unset run entry_close evs _ w2 ops rfl hst
  exact ⟨h1, h2⟩

/-- C13: a construction with a multicast endpoint address returns an object,
whatever the socket set-up steps report, and its unicast list is, in order, one
entry for each interface whose family is that of the endpoint, whose address
is neither loopback nor the wildcard and whose open and bind both succeed, the
entry holding a socket bound to `(interface address, 0)`. The outcome of the
open and bind of socket number `k` decides on the entry of that socket only:
with any other outcome for it the entries of all other sockets are the same. -/
theorem construct_unicast_sockets {H : Type} (ios : io_service)
    (interfaces : List ip_interface) (multicast_endpoint : endpoint) (handler : Option H)
    (loopback joingroup : Bool) (hm : is_multicast multicast_endpoint.address = true) :
    ∃ r : io_service × broadcast_socket H × List (operation H),
      broadcast_socket.construct ios interfaces multicast_endpoint handler loopback joingroup
          = some r
        ∧ r.2.1.m_unicast_sockets.map (fun e => e.socket)
          = (((interfaces.filter fun i =>
                i.interface_address.is_v4 == multicast_endpoint.address.is_v4
                  && !is_loopback i.interface_address && !is_any i.interface_address).enumFrom
              (ios.created + if joingroup then 1 else 0)).filterMap fun p =>
                if ios.open_ec p.1 || ios.bind_ec p.1 then none
                else some (some ⟨p.1, p.2.interface_address.is_v4, ⟨p.2.interface_address, 0⟩,
                  false, none, none, none⟩))
        ∧ r.2.1.m_unicast_sockets = expected_unicast_sockets ios
            multicast_endpoint.address.is_v4 (ios.created + if joingroup then 1 else 0) interfaces
        ∧ (∀ (ios2 : io_service) (k : Nat), ios2.created = ios.created →
            (∀ j, j ≠ k → ios2.open_ec j = ios.open_ec j ∧ ios2.bind_ec j = ios.bind_ec j) →
            ∃ r2 : io_service × broadcast_socket H × List (operation H),
              broadcast_socket.construct ios2 interfaces multicast_endpoint handler loopback
                  joingroup = some r2
                ∧ r2.2.1.m_unicast_sockets.filter
                    (fun e => e.socket.map datagram_socket.id != some k)
                  = r.2.1.m_unicast_sockets.filter
                    (fun e => e.socket.map datagram_socket.id != some k)) := by
  obtain ⟨r, h1, h2, -, -, -⟩ := construct_eq ios interfaces multicast_endpoint handler
    loopback joingroup hm
  refine ⟨r, h1, ?_, h2, ?_⟩
  · rw [h2]
    exact expected_unicast_sockets_handles ios _ _ interfaces
  · intro ios2 k hc hother
    obtain ⟨r2, g1, g2, -, -, -⟩ := construct_eq ios2 interfaces multicast_endpoint handler
      loopback joingroup hm
    refine ⟨r2, g1, ?_⟩
    rw [g2, h2, hc]
    exact expected_unicast_sockets_other ios ios2 _ k hother interfaces _

/-- C13 witness: for the group 239.255.255.250:1900 and the interfaces
192.168.1.10, 127.0.0.1, 10.0.0.5, fe80::1, 0.0.0.0, 172.16.0.1, with the bind
of the second socket failing, the unicast list holds socket 0 bound to
192.168.1.10:0 and socket 2 bound to 172.16.0.1:0. -/
theorem construct_unicast_sockets_witness :
    (broadcast_socket.construct
        ⟨0, fun _ => false, fun _ => false, fun k => k == 1, fun _ => false, fun _ => false,
          fun _ => false⟩
        [⟨address.v4 ⟨[192, 168, 1, 10], rfl⟩⟩, ⟨address.v4 ⟨[127, 0, 0, 1], rfl⟩⟩,
          ⟨address.v4 ⟨[10, 0, 0, 5], rfl⟩⟩,
          ⟨address.v6 ⟨[0xfe, 0x80, 0, 0, 0, 0, 0, 0, 0, 0, 0, 0, 0, 0, 0, 1], rfl, 0⟩⟩,
          ⟨address.v4 ⟨[0, 0, 0, 0], rfl⟩⟩, ⟨address.v4 ⟨[172, 16, 0, 1], rfl⟩⟩]
        ⟨address.v4 ⟨[239, 255, 255, 250], rfl⟩, 1900⟩ (some 7) true false).map
        (fun r => r.2.1.m_unicast_sockets.map fun e =>
          e.socket.map fun s => (s.id, s.local_endpoint))
      = some [some (0, ⟨address.v4 ⟨[192, 168, 1, 10], rfl⟩, 0⟩),
          some (2, ⟨address.v4 ⟨[172, 16, 0, 1], rfl⟩, 0⟩)] := by
  obtain ⟨r, h1, -, h2, -⟩ := construct_unicast_sockets
    ⟨0, fun _ => false, fun _ => false, fun k => k == 1, fun _ => false, fun _ => false,
      fun _ => false⟩
    [⟨address.v4 ⟨[192, 168, 1, 10], rfl⟩⟩, ⟨address.v4 ⟨[127, 0, 0, 1], rfl⟩⟩,
      ⟨address.v4 ⟨[10, 0, 0, 5], rfl⟩⟩,
      ⟨address.v6 ⟨[0xfe, 0x80, 0, 0, 0, 0, 0, 0, 0, 0, 0, 0, 0, 0, 0, 1], rfl, 0⟩⟩,
      ⟨address.v4 ⟨[0, 0, 0, 0], rfl⟩⟩, ⟨address.v4 ⟨[172, 16, 0, 1], rfl⟩⟩]
    ⟨address.v4 ⟨[239, 255, 255, 250], rfl⟩, 1900⟩ (some 7) true false (by decide)
  rw [h1, Option.map_some', h2]
  decide

/-- C14: `send` leaves the object (both socket lists, the callback, the endpoint)
and the caller's `ec` as they are, and submits exactly one asynchronous send of
the buffer to the stored multicast endpoint for each unicast entry whose
handle is set, in list order: nothing for an entry whose handle is cleared, and
nothing that depends on the group-receive list. -/
theorem send_fan_out {H : Type} (self : broadcast_socket H) (buf : List Byte) (ec : Bool) :
    (self.send buf ec).1 = self
      ∧ (self.send buf ec).2.1 = ec
      ∧ (self.send buf ec).2.2 = self.m_unicast_sockets.filterMap (fun e =>
          e.socket.map fun socket => operation.async_send_to socket buf self.m_multicast_endpoint)
      ∧ (∀ l : List socket_entry,
          (broadcast_socket.send ⟨self.m_multicast_endpoint, self.m_on_receive, l,
            self.m_unicast_sockets⟩ buf ec).2.2 = (self.send buf ec).2.2)
      ∧ ((self.send buf ec).2.2).length
          = (self.m_unicast_sockets.filter fun e => e.socket.isSome).length := by
  refine ⟨rfl, rfl, send_loop_eq _ _ _, fun _ => rfl, ?_⟩
  simp only [broadcast_socket.send, send_loop_eq]
  generalize self.m_unicast_sockets = l
  induction l with
  | nil => rfl
  | cons i rest ih =>
    cases hi : i.socket with
    | none => simp [List.filterMap_cons, List.filter_cons, hi, ih]
    | some socket => simp [List.filterMap_cons, List.filter_cons, hi, ih]

/-- C15: with `socket_entry::close` clearing the handle of an entry, `close` is
idempotent, `close (close s) = close s`; after one `close` every entry of the
receive list and of the unicast list has no handle, the callback is unset, and
the lists keep their lengths and the endpoint its value. Idempotence holds for
every idempotent `socket_entry::close`. -/
theorem close_idempotent {H : Type} (self : broadcast_socket H) :
    (self.close socket_entry.close).close socket_entry.close = self.close socket_entry.close
      ∧ (∀ e ∈ (self.close socket_entry.close).m_sockets, e.socket = none)
      ∧ (∀ e ∈ (self.close socket_entry.close).m_unicast_sockets, e.socket = none)
      ∧ (self.close socket_entry.close).m_on_receive = none
      ∧ (self.close socket_entry.close).m_sockets.length = self.m_sockets.length
      ∧ (self.close socket_entry.close).m_unicast_sockets.length = self.m_unicast_sockets.length
      ∧ (self.close socket_entry.close).m_multicast_endpoint = self.m_multicast_endpoint
      ∧ (∀ entry_close : socket_entry → socket_entry,
          (∀ e, entry_close (entry_close e) = entry_close e) →
          (self.close entry_close).close entry_close = self.close entry_close) := by
  have hcc : ∀ e : socket_entry, socket_entry.close (socket_entry.close e) = socket_entry.close e :=
    fun _ => rfl
  have hgen : ∀ entry_close : socket_entry → socket_entry,
      (∀ e, entry_close (entry_close e) = entry_close e) →
      (self.close entry_close).close entry_close = self.close entry_close := by
    intro entry_close hid
    simp only [broadcast_socket.close, List.map_map]
    have : (entry_close ∘ entry_close) = entry_close := funext hid
    rw [this]
  refine ⟨hgen _ hcc, ?_, ?_, rfl, by simp [broadcast_socket.close],
    by simp [broadcast_socket.close], rfl, hgen⟩
  · intro e he
    simp only [broadcast_socket.close, List.mem_map] at he
    obtain ⟨e0, -, rfl⟩ := he
    rfl
  · intro e he
    simp only [broadcast_socket.close, List.mem_map] at he
    obtain ⟨e0, -, rfl⟩ := he
    rfl

/-- C17: one receive completion `on_receive(s, ec, n)` on an entry `s` of the
object, with a byte count that fits the `int` parameter of the callback. If
`ec` is an error, `n = 0` or the callback is unset, nothing is called or
started and the object is left as it is (the socket is not closed). Otherwise
the callback is called exactly once with `(s.remote, s.buffer, n)`, and then
exactly one receive is started on `s` if its handle is still set after the
callback ran, none if it is cleared; none in particular when the callback
closed the object and `socket_entry::close` clears the handle. In every case
at most one call and at most one receive, on `s`. Consequently the receives
outstanding stay free of repetitions under every event, and from a
construction on: each entry has at most one receive outstanding. -/
theorem on_receive_step {H : Type}
    (run : H → endpoint → List Byte → Int → broadcast_socket H → broadcast_socket H)
    (self : broadcast_socket H) (s : socket_entry_ptr) (e : socket_entry) (ec : Bool)
    (n : Nat) (hs : self.deref s = some e) (hn : n ≤ 2147483647) :
    ((ec = true ∨ n = 0 ∨ self.m_on_receive = none) →
        self.on_receive run s ec n = some (self, []))
      ∧ (∀ (h : H) (e1 : socket_entry), self.m_on_receive = some h → ec = false → n ≠ 0 →
          (run h e.remote e.buffer n self).deref s = some e1 →
          self.on_receive run s ec n
            = some (run h e.remote e.buffer n self,
                operation.m_on_receive h e.remote e.buffer n
                  :: (match e1.socket with
                      | some socket => [operation.async_receive_from socket s]
                      | none => [])))
      ∧ (∀ (entry_close : socket_entry → socket_entry) (h : H),
          (∀ x, (entry_close x).socket = none) →
          self.m_on_receive = some h → ec = false → n ≠ 0 →
          run h e.remote e.buffer n self = self.close entry_close →
          self.on_receive run s ec n
            = some (self.close entry_close,
                [operation.m_on_receive h e.remote e.buffer n]))
      ∧ (∀ r : broadcast_socket H × List (operation H),
          self.on_receive run s ec n = some r →
          operation.calls r.2 ≤ 1
            ∧ (operation.receives r.2 = [] ∨ operation.receives r.2 = [s]))
      ∧ (∀ (entry_close : socket_entry → socket_entry) (w w2 : reactor H) (ev : event)
          (ops : List (operation H)),
          w.outstanding.Nodup → w.step run entry_close ev = some (w2, ops) →
          w2.outstanding.Nodup)
      ∧ (∀ (entry_close : socket_entry → socket_entry) (ios : io_service)
          (interfaces : List ip_interface) (multicast_endpoint : endpoint)
          (handler : Option H) (loopback joingroup : Bool)
          (r : io_service × broadcast_socket H × List (operation H)),
          broadcast_socket.construct ios interfaces multicast_endpoint handler loopback
            joingroup = some r →
          ∀ (evs : List event) (w2 : reactor H) (ops : List (operation H)),
            reactor.steps run entry_close ⟨r.2.1, operation.receives r.2.2⟩ evs
                = some (w2, ops) →
            w2.outstanding.Nodup) := by
  have hw : toInt32 (n : Int) = (n : Int) := toInt32_of_range _ (by omega) (by omega)
  refine ⟨?_, ?_, ?_, on_receive_ops run self s ec n, step_nodup run, ?_⟩
  · intro hg
    have : (ec || n == 0 || self.m_on_receive.isNone) = true := by
      rcases hg with h | h | h
      · simp [h]
      · simp [h]
      · simp [h]
    simp [broadcast_socket.on_receive, this]
  · intro h e1 hh hec hn0 hs1
    subst hec
    rw [← hw] at hs1 ⊢
    exact on_receive_call run self s e e1 h n hs hh hn0 hs1
  · intro entry_close h hcl hh hec hn0 hrun
    subst hec
    have hs1 : (run h e.remote e.buffer (toInt32 n) self).deref s
        = some (entry_close e) := by
      rw [hw, hrun, deref_close, hs]
      rfl
    rw [on_receive_call run self s e _ h n hs hh hn0 hs1, hw, hrun, hcl e]
  · intro entry_close ios interfaces multicast_endpoint handler loopback joingroup r hr evs w2
      ops hst
    exact steps_nodup run entry_close evs _ w2 ops
      (construct_receives_nodup ios interfaces multicast_endpoint handler loopback joingroup r hr)
      hst

/-- C17 witness: on `sample_object`, a completion of five bytes calls the handler
once and starts one receive when the handler leaves the object alone, calls it
once and starts none when the handler closes the object, and does nothing on
an error or on zero bytes. -/
theorem on_receive_step_witness :
    sample_object.on_receive sample_run_idle (socket_entry_ptr.m_unicast_sockets 0) false 5
        = some (sample_object,
            [operation.m_on_receive 7 sample_entry.remote sample_entry.buffer ((5 : Nat) : Int),
              operation.async_receive_from sample_socket (socket_entry_ptr.m_unicast_sockets 0)])
      ∧ sample_object.on_receive sample_run_close (socket_entry_ptr.m_unicast_sockets 0) false 5
        = some (sample_object.close socket_entry.close,
            [operation.m_on_receive 7 sample_entry.remote sample_entry.buffer ((5 : Nat) : Int)])
      ∧ sample_object.on_receive sample_run_idle (socket_entry_ptr.m_unicast_sockets 0) true 5
        = some (sample_object, [])
      ∧ sample_object.on_receive sample_run_idle (socket_entry_ptr.m_unicast_sockets 0) false 0
        = some (sample_object, []) :=
  ⟨(on_receive_step sample_run_idle sample_object (socket_entry_ptr.m_unicast_sockets 0)
      sample_entry false 5 rfl (by decide)).2.1 7 sample_entry rfl rfl (by decide) rfl,
    (on_receive_step sample_run_close sample_object (socket_entry_ptr.m_unicast_sockets 0)
      sample_entry false 5 rfl (by decide)).2.2.1 socket_entry.close 7 (fun _ => rfl) rfl rfl
      (by decide) rfl,
    (on_receive_step sample_run_idle sample_object (socket_entry_ptr.m_unicast_sockets 0)
      sample_entry true 5 rfl (by decide)).1 (Or.inl rfl),
    (on_receive_step sample_run_idle sample_object (socket_entry_ptr.m_unicast_sockets 0)
      sample_entry false 0 rfl (by decide)).1 (Or.inr (Or.inl rfl))⟩

end p2engine
